import Mathlib

set_option synthInstance.maxSize 4000

/-! Formal model of the DNS wire codec implemented in src/encoder.rs and
src/proto.rs of the codecrafters-dns-server-rust repository.  Rust strings
are modelled as the lists of their UTF-8 bytes, byte buffers as lists of
naturals (each below 256 in every reachable state), and fallible operations
return `Except Error`. -/

/-- Error enumeration of src/encoder.rs.  In the source `DecodeUtf8` carries a
`Utf8Error` payload and `Custom` a message string; neither payload feeds back
into the codec logic, so both are omitted here.  `Custom` also serves as the
out-of-fuel result of the modelled `read_name` loop, a branch that the fuel
actually supplied never reaches. -/
inductive Error where
  | BitsWidth (width : Nat)
  | BitsWrite (offset width : Nat)
  | BitsRead (offset width : Nat)
  | Read (offset read_len buf_len : Nat)
  | DecodeUtf8
  | Custom
deriving DecidableEq

/-- Continuation-byte test (0x80–0xBF) of UTF-8 validation. -/
def utf8Cont (c : Nat) : Bool := 0x80 ≤ c && c ≤ 0xBF

/-- Validity of a byte sequence as UTF-8, as checked by the call to
`std::str::from_utf8` in `Decoder::read_label` (src/encoder.rs line 221). -/
def utf8Valid : List Nat → Bool
  | [] => true
  | b :: rest =>
    if b < 0x80 then utf8Valid rest
    else if b < 0xC2 then false
    else if b ≤ 0xDF then
      match rest with
      | c :: rest2 => utf8Cont c && utf8Valid rest2
      | [] => false
    else if b ≤ 0xEF then
      match rest with
      | c1 :: c2 :: rest2 =>
        (if b = 0xE0 then 0xA0 ≤ c1 && c1 ≤ 0xBF
         else if b = 0xED then 0x80 ≤ c1 && c1 ≤ 0x9F
         else utf8Cont c1) && utf8Cont c2 && utf8Valid rest2
      | _ => false
    else if b ≤ 0xF4 then
      match rest with
      | c1 :: c2 :: c3 :: rest2 =>
        (if b = 0xF0 then 0x90 ≤ c1 && c1 ≤ 0xBF
         else if b = 0xF4 then 0x80 ≤ c1 && c1 ≤ 0x8F
         else utf8Cont c1) && utf8Cont c2 && utf8Cont c3 && utf8Valid rest2
      | _ => false
    else false

/-- Model of Rust's `str::split('.')` acting on the UTF-8 bytes of a string:
byte 0x2E = 46 is the separator (in valid UTF-8 the byte 46 occurs exactly at
the character `.`). -/
def splitDots : List Nat → List (List Nat)
  | [] => [[]]
  | b :: rest =>
    if b = 46 then [] :: splitDots rest
    else
      match splitDots rest with
      | l :: ls => (b :: l) :: ls
      | [] => [[b]]

/-- Model of joining decoded labels with a dot, the accumulation described in
spec section 4.3 for the name decoder. -/
def joinDots : List (List Nat) → List Nat
  | [] => []
  | [l] => l
  | l :: ls => l ++ 46 :: joinDots ls

/-- Model of `Vec::resize(new_len, 0)`: truncate or zero-extend the buffer to
the given new total length. -/
def vecResize (l : List Nat) (new_len : Nat) : List Nat :=
  if new_len ≤ l.length then l.take new_len
  else l ++ List.replicate (new_len - l.length) 0

/-- Big-endian bytes written for a 16-bit value (`u16::to_be_bytes`); the
`as u16` casts at call sites reduce the value mod 2^16, which the `% 65536`
here reproduces for arbitrary naturals. -/
def wireU16 (v : Nat) : List Nat := [v % 65536 / 256, v % 256]

/-- Big-endian bytes written for a 32-bit value (`u32::to_be_bytes`). -/
def wireU32 (v : Nat) : List Nat :=
  [v % 4294967296 / 16777216, v % 16777216 / 65536, v % 65536 / 256, v % 256]

/-- The `Encoder` of src/encoder.rs: a write offset into an output buffer. -/
structure Encoder where
  offset : Nat
  buf : List Nat
deriving DecidableEq

namespace Encoder

/-- Encoder::set_offset (src/encoder.rs lines 42-47).  The source passes
`pos - buf.len()` — the size of the gap — to `Vec::resize`, whose argument is
the new total length of the vector. -/
def set_offset (e : Encoder) (pos : Nat) : Encoder :=
  if e.buf.length < pos then { offset := pos, buf := vecResize e.buf (pos - e.buf.length) }
  else { offset := pos, buf := e.buf }

/-- Encoder::write_u8: overwrite in place when the offset is inside the
buffer, otherwise push at the end. -/
def write_u8 (e : Encoder) (b : Nat) : Encoder :=
  if e.offset < e.buf.length then { offset := e.offset + 1, buf := e.buf.set e.offset b }
  else { offset := e.offset + 1, buf := e.buf ++ [b] }

/-- Encoder::write_slice: copy over existing buffer positions, append what
lies beyond them.  The source computes `cp_hi - cp_lo` in `usize`; in every
state this codec reaches the offset is at most the buffer length, where
truncated `Nat` subtraction agrees with the source. -/
def write_slice (e : Encoder) (b : List Nat) : Encoder :=
  if b.length = 1 then e.write_u8 b.headI
  else
    let cp_lo := e.offset
    let cp_hi := min (e.offset + b.length) e.buf.length
    let cp_sz := cp_hi - cp_lo
    { offset := e.offset + b.length,
      buf := e.buf.take cp_lo ++ b.take cp_sz ++ e.buf.drop cp_hi ++ b.drop cp_sz }

/-- Encoder::write_str writes the raw bytes of the string. -/
def write_str (e : Encoder) (s : List Nat) : Encoder := e.write_slice s

/-- Encoder::write_u16: big-endian append. -/
def write_u16 (e : Encoder) (v : Nat) : Encoder := e.write_slice (wireU16 v)

/-- Encoder::write_u32: big-endian append. -/
def write_u32 (e : Encoder) (v : Nat) : Encoder := e.write_slice (wireU32 v)

end Encoder

/-- The single-byte bit writer of src/encoder.rs: `data` is the byte being
assembled, `offset` the number of bits already written. -/
structure BitEncoder where
  data : Nat
  offset : Nat
deriving DecidableEq

/-- BitEncoder::write (src/encoder.rs lines 117-135).  The mask is computed in
the source as `(1u8 << width) - 1`; for `width = 8` — a width the guards let
through — that shift overflows `u8`, panicking in debug builds and wrapping
the shift count to `width % 8` in release builds.  The wrapped (release)
semantics is modelled. -/
def BitEncoder.write (s : BitEncoder) (value width : Nat) : Except Error BitEncoder :=
  if width = 0 ∨ 8 < width then .error (.BitsWidth width)
  else if 8 < s.offset + width then .error (.BitsWrite s.offset width)
  else
    .ok { data := s.data ||| (value &&& (2 ^ (width % 8) - 1)) <<< (8 - s.offset - width),
          offset := s.offset + width }

/-- The single-byte bit reader of src/encoder.rs. -/
structure BitDecoder where
  data : Nat
  offset : Nat
deriving DecidableEq

/-- BitDecoder::read (src/encoder.rs lines 150-167); its mask has the same
`1u8 << width` overflow at `width = 8` as `BitEncoder::write`, modelled with
the wrapped shift count. -/
def BitDecoder.read (s : BitDecoder) (width : Nat) : Except Error (Nat × BitDecoder) :=
  if width = 0 ∨ 8 < width then .error (.BitsWidth width)
  else if 8 < s.offset + width then .error (.BitsRead s.offset width)
  else
    .ok ((s.data &&& (2 ^ (width % 8) - 1) <<< (8 - s.offset - width)) >>> (8 - s.offset - width),
         { data := s.data, offset := s.offset + width })

/-- Sequential bit writes, modelling the closure passed to `write_bits`. -/
def bitsWriteList : BitEncoder → List (Nat × Nat) → Except Error BitEncoder
  | s, [] => .ok s
  | s, (v, w) :: rest =>
    match s.write v w with
    | .error e => .error e
    | .ok s2 => bitsWriteList s2 rest

/-- Encoder::write_bits: assemble one byte from bit fields over a fresh zero
byte, then append it to the buffer. -/
def Encoder.write_bits (e : Encoder) (fields : List (Nat × Nat)) : Except Error Encoder :=
  match bitsWriteList { data := 0, offset := 0 } fields with
  | .error err => .error err
  | .ok s => .ok (e.write_u8 s.data)

/-- Sequential bit reads, modelling the closure passed to `read_bits`. -/
def bitsReadList : BitDecoder → List Nat → Except Error (List Nat × BitDecoder)
  | s, [] => .ok ([], s)
  | s, w :: rest =>
    match s.read w with
    | .error e => .error e
    | .ok (v, s2) =>
      match bitsReadList s2 rest with
      | .error e => .error e
      | .ok (vs, s3) => .ok (v :: vs, s3)

/-- The `Decoder` of src/encoder.rs: an input buffer, a read offset and the
label table (a `HashMap<usize, &str>` in the source, modelled as an
association list with the most recent insertion first, which `List.lookup`
finds first — the observable insert/get behaviour of the hash map). -/
structure Decoder where
  buf : List Nat
  offset : Nat
  labels : List (Nat × List Nat)
deriving DecidableEq

namespace Decoder

/-- Decoder::read_slice (src/encoder.rs lines 193-204). -/
def read_slice (d : Decoder) (len : Nat) : Except Error (List Nat × Decoder) :=
  if d.buf.length < d.offset + len then
    .error (.Read d.offset len d.buf.length)
  else
    .ok ((d.buf.drop d.offset).take len,
         { buf := d.buf, offset := d.offset + len, labels := d.labels })

/-- Decoder::read_u8. -/
def read_u8 (d : Decoder) : Except Error (Nat × Decoder) :=
  match d.read_slice 1 with
  | .error e => .error e
  | .ok (bs, d2) => .ok (bs.headI, d2)

/-- Decoder::read_u16, big-endian. -/
def read_u16 (d : Decoder) : Except Error (Nat × Decoder) :=
  match d.read_slice 2 with
  | .error e => .error e
  | .ok (bs, d2) => .ok (bs.headI * 256 + bs.tail.headI, d2)

/-- Decoder::read_u32, big-endian. -/
def read_u32 (d : Decoder) : Except Error (Nat × Decoder) :=
  match d.read_slice 4 with
  | .error e => .error e
  | .ok (bs, d2) =>
    .ok (bs.headI * 16777216 + bs.tail.headI * 65536 +
         bs.tail.tail.headI * 256 + bs.tail.tail.tail.headI, d2)

/-- Decoder::read_bits: read one byte and run the given sequence of bit reads
over it (the sequential `read` calls of the closure). -/
def read_bits (d : Decoder) (widths : List Nat) : Except Error (List Nat × Decoder) :=
  match d.read_slice 1 with
  | .error e => .error e
  | .ok (bs, d2) =>
    match bitsReadList { data := bs.headI, offset := 0 } widths with
    | .error e => .error e
    | .ok (vs, _) => .ok (vs, d2)

/-- Decoder::read_label (src/encoder.rs lines 206-226): a zero byte ends the
name, a byte with both top bits set is a compression pointer resolved through
the label table, anything else is a plain label recorded in the table under
its own starting offset. -/
def read_label (d : Decoder) : Except Error (Option (List Nat) × Decoder) :=
  let label_offset := d.offset
  match d.read_u8 with
  | .error e => .error e
  | .ok (len, d1) =>
    if len = 0 then .ok (none, d1)
    else if len &&& 192 = 192 then
      match d1.read_u8 with
      | .error e => .error e
      | .ok (b2, d2) => .ok (d2.labels.lookup ((len &&& 63) * 256 + b2), d2)
    else
      match d1.read_slice len with
      | .error e => .error e
      | .ok (bs, d2) =>
        if utf8Valid bs then
          .ok (some bs,
               { buf := d2.buf, offset := d2.offset, labels := (label_offset, bs) :: d2.labels })
        else .error .DecodeUtf8

/-- Modelled from the spec: `Decoder::read_name`, which `Name::decode` in
src/proto.rs calls, is absent from the repository sources.  Spec section 4.3
describes it: labels are read in sequence through the label reader, a zero
length byte terminates the name, and a compression pointer splices in the
looked-up expansion and then stops.  This loop gathers the labels; the fuel
argument makes the recursion structural and the fuel actually supplied
(buffer length + 1) is proved never to run out. -/
def read_name_labels : Nat → Decoder → Except Error (List (List Nat) × Decoder)
  | 0, _ => .error .Custom
  | fuel + 1, d =>
    match d.read_label with
    | .error e => .error e
    | .ok (none, d1) => .ok ([], d1)
    | .ok (some l, d1) =>
      if d.buf.getD d.offset 0 &&& 192 = 192 then .ok ([l], d1)
      else
        match read_name_labels fuel d1 with
        | .error e => .error e
        | .ok (ls, d2) => .ok (l :: ls, d2)

/-- Modelled from the spec: the labels gathered by `read_name_labels` are
joined with dots into the final name string (spec section 4.3). -/
def read_name (d : Decoder) : Except Error (List Nat × Decoder) :=
  match read_name_labels (d.buf.length + 1) d with
  | .error e => .error e
  | .ok (ls, d1) => .ok (joinDots ls, d1)

end Decoder

/-- The `Name` newtype of src/proto.rs: a domain name as a dot-joined string,
modelled by its UTF-8 bytes. -/
structure Name where
  str : List Nat
deriving DecidableEq

/-- Name::encode (src/proto.rs lines 7-13): for every dot-separated label a
length byte (`label.len() as u8`, the length mod 256) then the raw label
bytes, closed by a zero byte. -/
def Name.encode (n : Name) (e : Encoder) : Encoder :=
  ((splitDots n.str).foldl (fun e l => (e.write_u8 (l.length % 256)).write_str l) e).write_u8 0

/-- Name::decode (src/proto.rs lines 15-18). -/
def Name.decode (d : Decoder) : Except Error (Name × Decoder) :=
  match d.read_name with
  | .error e => .error e
  | .ok (s, d1) => .ok (⟨s⟩, d1)

/-- The resource `Type` enumeration of src/proto.rs, named `Ty` here because
`Type` is reserved in Lean. -/
inductive Ty where
  | A | NS | MD | MF | CNAME | SOA | MB | MG | MR | NULL | WKS | PTR
  | HINFO | MINFO | MX | TXT | AXFR | MAILB | MAILA | ANY
  | UNKNOWN (v : Nat)
deriving DecidableEq

/-- The 16-bit code Type::encode writes for each variant (src/proto.rs lines
52-78). -/
def Ty.code : Ty → Nat
  | .A => 1
  | .NS => 2
  | .MD => 3
  | .MF => 4
  | .CNAME => 5
  | .SOA => 6
  | .MB => 7
  | .MG => 8
  | .MR => 9
  | .NULL => 10
  | .WKS => 11
  | .PTR => 12
  | .HINFO => 13
  | .MINFO => 14
  | .MX => 15
  | .TXT => 16
  | .AXFR => 252
  | .MAILB => 253
  | .MAILA => 254
  | .ANY => 255
  | .UNKNOWN v => v

/-- Type::encode writes the numeric code as a u16. -/
def Ty.encode (t : Ty) (e : Encoder) : Encoder := e.write_u16 t.code

/-- The variant Type::decode builds from a 16-bit code (src/proto.rs lines
80-107): every unmapped code becomes `UNKNOWN`. -/
def Ty.ofCode (v : Nat) : Ty :=
  match v with
  | 1 => .A
  | 2 => .NS
  | 3 => .MD
  | 4 => .MF
  | 5 => .CNAME
  | 6 => .SOA
  | 7 => .MB
  | 8 => .MG
  | 9 => .MR
  | 10 => .NULL
  | 11 => .WKS
  | 12 => .PTR
  | 13 => .HINFO
  | 14 => .MINFO
  | 15 => .MX
  | 16 => .TXT
  | 252 => .AXFR
  | 253 => .MAILB
  | 254 => .MAILA
  | 255 => .ANY
  | _ => .UNKNOWN v

/-- Type::decode. -/
def Ty.decode (d : Decoder) : Except Error (Ty × Decoder) :=
  match d.read_u16 with
  | .error e => .error e
  | .ok (v, d1) => .ok (.ofCode v, d1)

/-- The `Class` enumeration of src/proto.rs, named `Cls` here because Mathlib
already declares a root-level `Class`. -/
inductive Cls where
  | IN | CS | CH | HS | UNKNOWN (v : Nat)
deriving DecidableEq

/-- The 16-bit code Class::encode writes (src/proto.rs lines 122-131). -/
def Cls.code : Cls → Nat
  | .IN => 1
  | .CS => 2
  | .CH => 3
  | .HS => 4
  | .UNKNOWN v => v

/-- Class::encode writes the numeric code as a u16. -/
def Cls.encode (c : Cls) (e : Encoder) : Encoder := e.write_u16 c.code

/-- The variant Class::decode builds from a 16-bit code (src/proto.rs lines
133-142). -/
def Cls.ofCode (v : Nat) : Cls :=
  match v with
  | 1 => .IN
  | 2 => .CS
  | 3 => .CH
  | 4 => .HS
  | _ => .UNKNOWN v

/-- Class::decode. -/
def Cls.decode (d : Decoder) : Except Error (Cls × Decoder) :=
  match d.read_u16 with
  | .error e => .error e
  | .ok (v, d1) => .ok (.ofCode v, d1)

/-- The `Question` structure of src/proto.rs; the source names the third
field `class`, a reserved word in Lean, rendered here as `cls`. -/
structure Question where
  name : Name
  qtype : Ty
  cls : Cls
deriving DecidableEq

/-- Question::encode: name, then type, then class. -/
def Question.encode (q : Question) (e : Encoder) : Encoder :=
  q.cls.encode (q.qtype.encode (q.name.encode e))

/-- Question::decode. -/
def Question.decode (d : Decoder) : Except Error (Question × Decoder) :=
  match Name.decode d with
  | .error e => .error e
  | .ok (n, d1) =>
    match Ty.decode d1 with
    | .error e => .error e
    | .ok (t, d2) =>
      match Cls.decode d2 with
      | .error e => .error e
      | .ok (c, d3) => .ok ({ name := n, qtype := t, cls := c }, d3)

/-- The `Record` structure of src/proto.rs; RDLENGTH is not stored, it is
derived from `rdata` on encode. -/
structure Record where
  name : Name
  rtype : Ty
  cls : Cls
  ttl : Nat
  rdata : List Nat
deriving DecidableEq

/-- Record::encode: name, type, class, ttl, rdlength = rdata length, rdata. -/
def Record.encode (r : Record) (e : Encoder) : Encoder :=
  ((((r.cls.encode (r.rtype.encode (r.name.encode e))).write_u32 r.ttl).write_u16
      r.rdata.length).write_slice r.rdata)

/-- Record::decode. -/
def Record.decode (d : Decoder) : Except Error (Record × Decoder) :=
  match Name.decode d with
  | .error e => .error e
  | .ok (n, d1) =>
    match Ty.decode d1 with
    | .error e => .error e
    | .ok (t, d2) =>
      match Cls.decode d2 with
      | .error e => .error e
      | .ok (c, d3) =>
        match d3.read_u32 with
        | .error e => .error e
        | .ok (ttl, d4) =>
          match d4.read_u16 with
          | .error e => .error e
          | .ok (rdlength, d5) =>
            match d5.read_slice rdlength with
            | .error e => .error e
            | .ok (bs, d6) =>
              .ok ({ name := n, rtype := t, cls := c, ttl := ttl, rdata := bs }, d6)

/-- The `Message` structure of src/proto.rs.  The u16/u8 Rust field types
become naturals; claims about messages carry the corresponding range bounds
where they matter. -/
structure Message where
  id : Nat
  qr : Nat
  opcode : Nat
  aa : Nat
  tc : Nat
  rd : Nat
  ra : Nat
  z : Nat
  rcode : Nat
  nscount : Nat
  arcount : Nat
  questions : List Question
  answers : List Record
deriving DecidableEq

/-- Message::encode (src/proto.rs lines 259-281). -/
def Message.encode (m : Message) (e : Encoder) : Except Error Encoder :=
  let e := e.write_u16 m.id
  match e.write_bits [(m.qr, 1), (m.opcode, 4), (m.aa, 1), (m.tc, 1), (m.rd, 1)] with
  | .error er => .error er
  | .ok e =>
    match e.write_bits [(m.ra, 1), (m.z, 3), (m.rcode, 4)] with
    | .error er => .error er
    | .ok e =>
      let e := e.write_u16 m.questions.length
      let e := e.write_u16 m.answers.length
      let e := e.write_u16 m.nscount
      let e := e.write_u16 m.arcount
      let e := m.questions.foldl (fun e q => q.encode e) e
      let e := m.answers.foldl (fun e r => r.encode e) e
      .ok e

/-- Sequential decoding of `n` entries, modelling
`(0..n).map(|_| f(dec)).collect::<Result<Vec<_>, _>>()`: the first failure
aborts the whole collection. -/
def decodeN {α : Type} (f : Decoder → Except Error (α × Decoder)) :
    Nat → Decoder → Except Error (List α × Decoder)
  | 0, d => .ok ([], d)
  | n + 1, d =>
    match f d with
    | .error e => .error e
    | .ok (x, d1) =>
      match decodeN f n d1 with
      | .error e => .error e
      | .ok (xs, d2) => .ok (x :: xs, d2)

/-- Message::decode (src/proto.rs lines 283-319): header fields in order,
then exactly qdcount questions and ancount records. -/
def Message.decode (d : Decoder) : Except Error (Message × Decoder) :=
  match d.read_u16 with
  | .error e => .error e
  | .ok (i, d) =>
    match d.read_bits [1, 4, 1, 1, 1] with
    | .error e => .error e
    | .ok (f1, d) =>
      match d.read_bits [1, 3, 4] with
      | .error e => .error e
      | .ok (f2, d) =>
        match d.read_u16 with
        | .error e => .error e
        | .ok (qd, d) =>
          match d.read_u16 with
          | .error e => .error e
          | .ok (an, d) =>
            match d.read_u16 with
            | .error e => .error e
            | .ok (ns, d) =>
              match d.read_u16 with
              | .error e => .error e
              | .ok (ar, d) =>
                match decodeN Question.decode qd d with
                | .error e => .error e
                | .ok (qs, d) =>
                  match decodeN Record.decode an d with
                  | .error e => .error e
                  | .ok (ans, d) =>
                    .ok ({ id := i, qr := f1.getD 0 0, opcode := f1.getD 1 0,
                           aa := f1.getD 2 0, tc := f1.getD 3 0, rd := f1.getD 4 0,
                           ra := f2.getD 0 0, z := f2.getD 1 0, rcode := f2.getD 2 0,
                           nscount := ns, arcount := ar,
                           questions := qs, answers := ans }, d)

/-- Message::to_bytes: encode into a fresh buffer. -/
def Message.to_bytes (m : Message) : Except Error (List Nat) :=
  match m.encode { offset := 0, buf := [] } with
  | .error e => .error e
  | .ok e => .ok e.buf

/-- Message::from_bytes: decode from the start of a buffer with an empty
label table. -/
def Message.from_bytes (buf : List Nat) : Except Error Message :=
  match Message.decode { buf := buf, offset := 0, labels := [] } with
  | .error e => .error e
  | .ok (m, _) => .ok m

/-- Wire image of a label list: each label preceded by its length byte. -/
def wireLabels : List (List Nat) → List Nat
  | [] => []
  | l :: ls => l.length % 256 :: (l ++ wireLabels ls)

/-- Wire image of a whole name: its labels followed by the zero terminator. -/
def nameWire (n : List Nat) : List Nat := wireLabels (splitDots n) ++ [0]

/-- The first packed flag byte as assembled by the sequence of bit writes
qr(1), opcode(4), aa(1), tc(1), rd(1). -/
def mkFlag1 (a b c d e : Nat) : Nat :=
  ((((0 ||| (a &&& 1) <<< 7) ||| (b &&& 15) <<< 3) ||| (c &&& 1) <<< 2) |||
      (d &&& 1) <<< 1) ||| (e &&& 1)

/-- The second packed flag byte as assembled by the sequence of bit writes
ra(1), z(3), rcode(4). -/
def mkFlag2 (a b c : Nat) : Nat :=
  ((0 ||| (a &&& 1) <<< 7) ||| (b &&& 7) <<< 4) ||| (c &&& 15)

/-- Wire image of a Type value. -/
def tyWire (t : Ty) : List Nat := wireU16 t.code

/-- Wire image of a Class value. -/
def clsWire (c : Cls) : List Nat := wireU16 c.code

/-- Wire image of a Question: name, type, class. -/
def questionWire (q : Question) : List Nat :=
  nameWire q.name.str ++ (tyWire q.qtype ++ clsWire q.cls)

/-- Wire image of a Record: name, type, class, ttl, rdlength, rdata. -/
def recordWire (r : Record) : List Nat :=
  nameWire r.name.str ++
    (tyWire r.rtype ++ (clsWire r.cls ++ (wireU32 r.ttl ++ (wireU16 r.rdata.length ++ r.rdata))))

/-- Concatenation of a list of wire images. -/
def wcat : List (List Nat) → List Nat
  | [] => []
  | w :: ws => w ++ wcat ws

/-- Wire image of an entire Message as Message::encode lays it out. -/
def msgWire (m : Message) : List Nat :=
  wireU16 m.id ++
    ([mkFlag1 m.qr m.opcode m.aa m.tc m.rd] ++
      ([mkFlag2 m.ra m.z m.rcode] ++
        (wireU16 m.questions.length ++
          (wireU16 m.answers.length ++
            (wireU16 m.nscount ++
              (wireU16 m.arcount ++
                (wcat (m.questions.map questionWire) ++ wcat (m.answers.map recordWire))))))))

/-- A label as produced by splitting a well-formed domain name: nonempty, at
most 63 bytes, valid UTF-8 (the UTF-8 side is the invariant of the Rust
`String` type the name lives in). -/
def validLabel (l : List Nat) : Prop :=
  1 ≤ l.length ∧ l.length ≤ 63 ∧ utf8Valid l = true

/-- A domain name all of whose dot-separated labels are well formed. -/
def validName (n : List Nat) : Prop := ∀ l ∈ splitDots n, validLabel l

/-- A Type value that decode can reproduce: its code is 16-bit (the `u16`
payload type of `UNKNOWN`) and mapping the code back yields the same variant
(rules out `UNKNOWN` carrying a code that has a named variant). -/
def tyCanon (t : Ty) : Prop := Ty.ofCode t.code = t ∧ t.code < 65536

/-- A Class value that decode can reproduce. -/
def clsCanon (c : Cls) : Prop := Cls.ofCode c.code = c ∧ c.code < 65536

/-- A Question whose encoding decodes back to itself. -/
def validQuestion (q : Question) : Prop :=
  validName q.name.str ∧ tyCanon q.qtype ∧ clsCanon q.cls

/-- A Record whose encoding decodes back to itself; ttl is u32 in the source
and rdata is capped by the 16-bit RDLENGTH field. -/
def validRecord (r : Record) : Prop :=
  validName r.name.str ∧ tyCanon r.rtype ∧ clsCanon r.cls ∧
    r.ttl < 4294967296 ∧ r.rdata.length < 65536

/-- A Message whose encoding decodes back to itself: the u16/u8 range bounds
of the Rust field types, every bit field within its declared width, and well
formed questions and answers. -/
def validMessage (m : Message) : Prop :=
  m.id < 65536 ∧ m.qr < 2 ∧ m.opcode < 16 ∧ m.aa < 2 ∧ m.tc < 2 ∧ m.rd < 2 ∧
    m.ra < 2 ∧ m.z < 8 ∧ m.rcode < 16 ∧ m.nscount < 65536 ∧ m.arcount < 65536 ∧
    m.questions.length < 65536 ∧ m.answers.length < 65536 ∧
    (∀ q ∈ m.questions, validQuestion q) ∧ (∀ r ∈ m.answers, validRecord r)

/-- The masked copy of a message: every bit field reduced to its declared
width, as the bit writer's `value & ((1 << width) - 1)` does. -/
def maskMessage (m : Message) : Message :=
  { m with qr := m.qr % 2, opcode := m.opcode % 16, aa := m.aa % 2, tc := m.tc % 2,
           rd := m.rd % 2, ra := m.ra % 2, z := m.z % 8, rcode := m.rcode % 16 }

/-- The only failure shapes Message::decode can surface: an out-of-bounds
read reported with the true buffer length and a genuinely out-of-range
request, or an invalid-UTF-8 label. -/
def decodeFailureShape (bufLen : Nat) (e : Error) : Prop :=
  (∃ o l, e = .Read o l bufLen ∧ bufLen < o + l) ∨ e = .DecodeUtf8

instance (l : List Nat) : Decidable (validLabel l) := by
  unfold validLabel
  infer_instance

instance (n : List Nat) : Decidable (validName n) := by
  unfold validName
  infer_instance

instance (t : Ty) : Decidable (tyCanon t) := by
  unfold tyCanon
  infer_instance

instance (c : Cls) : Decidable (clsCanon c) := by
  unfold clsCanon
  infer_instance

instance (q : Question) : Decidable (validQuestion q) := by
  unfold validQuestion
  infer_instance

instance (r : Record) : Decidable (validRecord r) := by
  unfold validRecord
  infer_instance

instance (m : Message) : Decidable (validMessage m) := by
  unfold validMessage
  infer_instance

instance {ε α : Type} [DecidableEq ε] [DecidableEq α] : DecidableEq (Except ε α) := fun a b =>
  match a, b with
  | .error x, .error y =>
    if h : x = y then .isTrue (by rw [h]) else .isFalse (fun hh => h (Except.error.inj hh))
  | .ok x, .ok y =>
    if h : x = y then .isTrue (by rw [h]) else .isFalse (fun hh => h (Except.ok.inj hh))
  | .error _, .ok _ => .isFalse (fun hh => Except.noConfusion hh)
  | .ok _, .error _ => .isFalse (fun hh => Except.noConfusion hh)

/-! Lemmas.  First the writer in append mode: whenever the offset sits at the
end of the buffer — the invariant throughout Message::encode, which never
repositions the cursor — every write is an append. -/

theorem headI_of_length_one {b : List Nat} (h : b.length = 1) : b = [b.headI] := by
  match b with
  | [x] => rfl

theorem and192_of_lt64 : ∀ n < 64, n &&& 192 = 0 := by decide

theorem Encoder.write_u8_append (e : Encoder) (b : Nat) (h : e.offset = e.buf.length) :
    e.write_u8 b = ⟨e.offset + 1, e.buf ++ [b]⟩ := by
  rw [Encoder.write_u8, if_neg (by omega)]

theorem Encoder.write_slice_append (e : Encoder) (b : List Nat) (h : e.offset = e.buf.length) :
    e.write_slice b = ⟨e.offset + b.length, e.buf ++ b⟩ := by
  rw [Encoder.write_slice]
  by_cases h1 : b.length = 1
  · rw [if_pos h1, Encoder.write_u8_append e _ h, h1]
    rw [show [b.headI] = b from (headI_of_length_one h1).symm]
  · rw [if_neg h1]
    have hmin : min (e.offset + b.length) e.buf.length = e.buf.length := by omega
    rw [hmin, h]
    simp [List.take_length, List.drop_length, Nat.sub_self]

theorem Encoder.write_u16_append (e : Encoder) (v : Nat) (h : e.offset = e.buf.length) :
    e.write_u16 v = ⟨e.offset + 2, e.buf ++ wireU16 v⟩ := by
  rw [Encoder.write_u16, Encoder.write_slice_append e _ h]; rfl

theorem Encoder.write_u32_append (e : Encoder) (v : Nat) (h : e.offset = e.buf.length) :
    e.write_u32 v = ⟨e.offset + 4, e.buf ++ wireU32 v⟩ := by
  rw [Encoder.write_u32, Encoder.write_slice_append e _ h]; rfl

/-- The five bit writes of the first flag byte always succeed and assemble
`mkFlag1`. -/
theorem bitsWriteList_flag1 (a b c d e : Nat) :
    bitsWriteList ⟨0, 0⟩ [(a, 1), (b, 4), (c, 1), (d, 1), (e, 1)] =
      .ok ⟨mkFlag1 a b c d e, 8⟩ := by
  simp [bitsWriteList, BitEncoder.write, mkFlag1]

/-- The three bit writes of the second flag byte always succeed and assemble
`mkFlag2`. -/
theorem bitsWriteList_flag2 (a b c : Nat) :
    bitsWriteList ⟨0, 0⟩ [(a, 1), (b, 3), (c, 4)] = .ok ⟨mkFlag2 a b c, 8⟩ := by
  simp [bitsWriteList, BitEncoder.write, mkFlag2]

theorem Encoder.write_bits_flag1 (e : Encoder) (a b c d e' : Nat)
    (h : e.offset = e.buf.length) :
    e.write_bits [(a, 1), (b, 4), (c, 1), (d, 1), (e', 1)] =
      .ok ⟨e.offset + 1, e.buf ++ [mkFlag1 a b c d e']⟩ := by
  rw [Encoder.write_bits, bitsWriteList_flag1]
  show Except.ok (e.write_u8 (mkFlag1 a b c d e')) = _
  rw [Encoder.write_u8_append e _ h]

theorem Encoder.write_bits_flag2 (e : Encoder) (a b c : Nat) (h : e.offset = e.buf.length) :
    e.write_bits [(a, 1), (b, 3), (c, 4)] =
      .ok ⟨e.offset + 1, e.buf ++ [mkFlag2 a b c]⟩ := by
  rw [Encoder.write_bits, bitsWriteList_flag2]
  show Except.ok (e.write_u8 (mkFlag2 a b c)) = _
  rw [Encoder.write_u8_append e _ h]

/-- Reading the five header fields back out of `mkFlag1` returns the original
values whenever they are within their widths. -/
theorem bitsReadList_flag1 : ∀ a < 2, ∀ b < 16, ∀ c < 2, ∀ d < 2, ∀ e < 2,
    bitsReadList ⟨mkFlag1 a b c d e, 0⟩ [1, 4, 1, 1, 1] =
      .ok ([a, b, c, d, e], ⟨mkFlag1 a b c d e, 8⟩) := by decide

/-- Reading the three header fields back out of `mkFlag2` returns the
original values whenever they are within their widths. -/
theorem bitsReadList_flag2 : ∀ a < 2, ∀ b < 8, ∀ c < 16,
    bitsReadList ⟨mkFlag2 a b c, 0⟩ [1, 3, 4] =
      .ok ([a, b, c], ⟨mkFlag2 a b c, 8⟩) := by decide

/-! Parse lemmas: each decoding step, run on a buffer that carries the
expected wire image at the current offset, succeeds and advances the offset
past that image. -/

theorem Decoder.read_slice_parse (d : Decoder) (pre mid post : List Nat) (len : Nat)
    (hlen : mid.length = len) (hbuf : d.buf = pre ++ mid ++ post)
    (hoff : d.offset = pre.length) :
    d.read_slice len = .ok (mid, ⟨d.buf, d.offset + len, d.labels⟩) := by
  rw [Decoder.read_slice,
    if_neg (by rw [hbuf, hoff]; simp only [List.length_append]; omega)]
  have hs : (d.buf.drop d.offset).take len = mid := by
    rw [hbuf, hoff, List.append_assoc, List.drop_left, ← hlen, List.take_left]
  rw [hs]

theorem Decoder.read_u8_parse (d : Decoder) (pre post : List Nat) (b : Nat)
    (hbuf : d.buf = pre ++ b :: post) (hoff : d.offset = pre.length) :
    d.read_u8 = .ok (b, ⟨d.buf, d.offset + 1, d.labels⟩) := by
  have h := Decoder.read_slice_parse d pre [b] post 1 rfl (by simpa using hbuf) hoff
  simp only [Decoder.read_u8, h, List.headI]

theorem Decoder.read_u16_parse (d : Decoder) (pre post : List Nat) (v : Nat) (hv : v < 65536)
    (hbuf : d.buf = pre ++ wireU16 v ++ post) (hoff : d.offset = pre.length) :
    d.read_u16 = .ok (v, ⟨d.buf, d.offset + 2, d.labels⟩) := by
  have h := Decoder.read_slice_parse d pre (wireU16 v) post 2 rfl hbuf hoff
  simp only [Decoder.read_u16, h, wireU16, List.headI, List.tail_cons]
  simp only [Except.ok.injEq, Prod.mk.injEq, and_true]
  omega

theorem Decoder.read_u32_parse (d : Decoder) (pre post : List Nat) (v : Nat)
    (hv : v < 4294967296) (hbuf : d.buf = pre ++ wireU32 v ++ post)
    (hoff : d.offset = pre.length) :
    d.read_u32 = .ok (v, ⟨d.buf, d.offset + 4, d.labels⟩) := by
  have h := Decoder.read_slice_parse d pre (wireU32 v) post 4 rfl hbuf hoff
  simp only [Decoder.read_u32, h, wireU32, List.headI, List.tail_cons]
  simp only [Except.ok.injEq, Prod.mk.injEq, and_true]
  omega

theorem Decoder.read_bits_parse (d : Decoder) (pre post : List Nat) (byte : Nat)
    (widths vs : List Nat) (s : BitDecoder)
    (hbits : bitsReadList ⟨byte, 0⟩ widths = .ok (vs, s))
    (hbuf : d.buf = pre ++ byte :: post) (hoff : d.offset = pre.length) :
    d.read_bits widths = .ok (vs, ⟨d.buf, d.offset + 1, d.labels⟩) := by
  have h := Decoder.read_slice_parse d pre [byte] post 1 rfl (by simpa using hbuf) hoff
  simp only [Decoder.read_bits, h, List.headI, hbits]

theorem Ty.code_ofCode_ty (v : Nat) : (Ty.ofCode v).code = v := by
  unfold Ty.ofCode
  split <;> rfl

theorem Cls.code_ofCode_cls (v : Nat) : (Cls.ofCode v).code = v := by
  unfold Cls.ofCode
  split <;> rfl

theorem Ty.decode_parse_ty (d : Decoder) (pre post : List Nat) (t : Ty) (ht : tyCanon t)
    (hbuf : d.buf = pre ++ tyWire t ++ post) (hoff : d.offset = pre.length) :
    Ty.decode d = .ok (t, ⟨d.buf, d.offset + 2, d.labels⟩) := by
  have h := Decoder.read_u16_parse d pre post t.code ht.2 (by simpa [tyWire] using hbuf) hoff
  simp only [Ty.decode, h, ht.1]

theorem Cls.decode_parse_cls (d : Decoder) (pre post : List Nat) (c : Cls) (hc : clsCanon c)
    (hbuf : d.buf = pre ++ clsWire c ++ post) (hoff : d.offset = pre.length) :
    Cls.decode d = .ok (c, ⟨d.buf, d.offset + 2, d.labels⟩) := by
  have h := Decoder.read_u16_parse d pre post c.code hc.2 (by simpa [clsWire] using hbuf) hoff
  simp only [Cls.decode, h, hc.1]

theorem wireLabels_length_ge (ls : List (List Nat)) : ls.length ≤ (wireLabels ls).length := by
  induction ls with
  | nil => simp [wireLabels]
  | cons l ls ih => simp only [wireLabels, List.length_cons, List.length_append]; omega

theorem splitDots_ne_nil (n : List Nat) : splitDots n ≠ [] := by
  cases n with
  | nil => simp [splitDots]
  | cons b rest =>
    rw [splitDots]
    split
    · simp
    · split <;> simp

theorem splitDots_cons_exists (n : List Nat) : ∃ l ls, splitDots n = l :: ls := by
  cases h : splitDots n with
  | nil => exact absurd h (splitDots_ne_nil n)
  | cons l ls => exact ⟨l, ls, rfl⟩

theorem joinDots_splitDots (n : List Nat) : joinDots (splitDots n) = n := by
  induction n with
  | nil => rfl
  | cons b rest ih =>
    obtain ⟨l, ls, hls⟩ := splitDots_cons_exists rest
    by_cases hb : b = 46
    · subst hb
      rw [splitDots, if_pos rfl, hls]
      have hj : joinDots ([] :: l :: ls) = [] ++ 46 :: joinDots (l :: ls) := by
        simp [joinDots]
      rw [hj, ← hls, ih]
      simp
    · rw [splitDots, if_neg hb, hls]
      rw [hls] at ih
      cases ls with
      | nil =>
        simp only [joinDots] at ih ⊢
        rw [ih]
      | cons l2 ls2 =>
        have hj1 : joinDots ((b :: l) :: l2 :: ls2) = (b :: l) ++ 46 :: joinDots (l2 :: ls2) := by
          simp [joinDots]
        have hj2 : joinDots (l :: l2 :: ls2) = l ++ 46 :: joinDots (l2 :: ls2) := by
          simp [joinDots]
        rw [hj2] at ih
        rw [hj1, ← ih]
        simp

theorem Decoder.read_name_labels_parse (ls : List (List Nat)) :
    ∀ (fuel : Nat) (d : Decoder) (pre post : List Nat),
      ls.length < fuel →
      (∀ l ∈ ls, validLabel l) →
      d.buf = pre ++ wireLabels ls ++ ([0] ++ post) →
      d.offset = pre.length →
      ∃ tbl, Decoder.read_name_labels fuel d =
        .ok (ls, ⟨d.buf, d.offset + (wireLabels ls).length + 1, tbl ++ d.labels⟩) := by
  induction ls with
  | nil =>
    intro fuel d pre post hf hv hbuf hoff
    cases fuel with
    | zero => exact absurd hf (by omega)
    | succ fuel =>
      refine ⟨[], ?_⟩
      have h0 : d.buf = pre ++ 0 :: post := by simpa [wireLabels] using hbuf
      have h8 := Decoder.read_u8_parse d pre post 0 h0 hoff
      simp only [Decoder.read_name_labels, Decoder.read_label, h8]
      simp [wireLabels]
  | cons l ls ih =>
    intro fuel d pre post hf hv hbuf hoff
    cases fuel with
    | zero => exact absurd hf (by omega)
    | succ fuel =>
      obtain ⟨h1len, h63, hutf⟩ := hv l (by simp)
      have hmod : l.length % 256 = l.length := Nat.mod_eq_of_lt (by omega)
      have hbuf1 : d.buf = pre ++ l.length % 256 :: (l ++ (wireLabels ls ++ ([0] ++ post))) := by
        simpa [wireLabels, List.append_assoc] using hbuf
      have h8 := Decoder.read_u8_parse d pre _ (l.length % 256) hbuf1 hoff
      have hslice := Decoder.read_slice_parse ⟨d.buf, d.offset + 1, d.labels⟩
        (pre ++ [l.length % 256]) l (wireLabels ls ++ ([0] ++ post)) (l.length % 256)
        hmod.symm (by simp [hbuf1]) (by simp [hoff]; try omega)
      have hcond0 : ¬(l.length % 256 = 0) := by omega
      have hcondp : ¬(l.length % 256 &&& 192 = 192) := by
        rw [hmod, and192_of_lt64 l.length (by omega)]
        omega
      have hlab : d.read_label =
          .ok (some l, ⟨d.buf, d.offset + 1 + l.length % 256, (d.offset, l) :: d.labels⟩) := by
        simp only [Decoder.read_label, h8, if_neg hcond0, if_neg hcondp, hslice, hutf, if_pos]
      have hgd : d.buf.getD d.offset 0 = l.length % 256 := by
        rw [hbuf1, hoff, List.getD_eq_getElem?_getD,
          List.getElem?_append_right (Nat.le_refl pre.length)]
        simp
      obtain ⟨tbl, htbl⟩ := ih fuel ⟨d.buf, d.offset + 1 + l.length % 256, (d.offset, l) :: d.labels⟩
        (pre ++ l.length % 256 :: l) post (by simp at hf; omega)
        (fun x hx => hv x (by simp [hx]))
        (by simp only [hbuf1]; simp [List.append_assoc])
        (by simp [hoff, hmod]; omega)
      refine ⟨tbl ++ [(d.offset, l)], ?_⟩
      simp only [Decoder.read_name_labels, hlab, hgd, if_neg hcondp, htbl]
      simp only [Except.ok.injEq, Prod.mk.injEq, Decoder.mk.injEq, true_and]
      refine ⟨?_, by simp⟩
      simp only [wireLabels, List.length_cons, List.length_append]
      omega

theorem Name.decode_parse_name (n : List Nat) (d : Decoder) (pre post : List Nat)
    (hn : validName n) (hbuf : d.buf = pre ++ nameWire n ++ post)
    (hoff : d.offset = pre.length) :
    ∃ tbl, Name.decode d =
      .ok (⟨n⟩, ⟨d.buf, d.offset + (nameWire n).length, tbl ++ d.labels⟩) := by
  have hshape : d.buf = pre ++ wireLabels (splitDots n) ++ ([0] ++ post) := by
    simpa [nameWire, List.append_assoc] using hbuf
  have hwl : (wireLabels (splitDots n)).length ≤ d.buf.length := by
    rw [hshape]
    simp only [List.length_append]
    omega
  have hfuel : (splitDots n).length < d.buf.length + 1 := by
    have h1 := wireLabels_length_ge (splitDots n)
    omega
  obtain ⟨tbl, htbl⟩ := Decoder.read_name_labels_parse (splitDots n) (d.buf.length + 1) d
    pre post hfuel hn hshape hoff
  refine ⟨tbl, ?_⟩
  simp only [Name.decode, Decoder.read_name, htbl, joinDots_splitDots]
  simp only [Except.ok.injEq, Prod.mk.injEq, Decoder.mk.injEq, true_and, and_true]
  simp only [nameWire, List.length_append, List.length_singleton]
  omega

@[simp] theorem wireU16_length (v : Nat) : (wireU16 v).length = 2 := rfl

@[simp] theorem wireU32_length (v : Nat) : (wireU32 v).length = 4 := rfl

@[simp] theorem tyWire_length (t : Ty) : (tyWire t).length = 2 := rfl

@[simp] theorem clsWire_length (c : Cls) : (clsWire c).length = 2 := rfl

theorem Question.decode_parse_question (q : Question) (d : Decoder) (pre post : List Nat)
    (hq : validQuestion q) (hbuf : d.buf = pre ++ questionWire q ++ post)
    (hoff : d.offset = pre.length) :
    ∃ tbl, Question.decode d =
      .ok (q, ⟨d.buf, d.offset + (questionWire q).length, tbl ++ d.labels⟩) := by
  obtain ⟨hn, ht, hc⟩ := hq
  obtain ⟨tbl, hname⟩ := Name.decode_parse_name q.name.str d pre
    (tyWire q.qtype ++ (clsWire q.cls ++ post)) hn
    (by simpa [questionWire, List.append_assoc] using hbuf) hoff
  have hty := Ty.decode_parse_ty ⟨d.buf, d.offset + (nameWire q.name.str).length, tbl ++ d.labels⟩
    (pre ++ nameWire q.name.str) (clsWire q.cls ++ post) q.qtype ht
    (by simp [hbuf, questionWire, List.append_assoc]) (by simp [hoff]; try omega)
  have hcls := Cls.decode_parse_cls
    ⟨d.buf, d.offset + (nameWire q.name.str).length + 2, tbl ++ d.labels⟩
    (pre ++ nameWire q.name.str ++ tyWire q.qtype) post q.cls hc
    (by simp [hbuf, questionWire, List.append_assoc]) (by simp [hoff]; try omega)
  refine ⟨tbl, ?_⟩
  simp only [Question.decode, hname, hty, hcls]
  simp only [Except.ok.injEq, Prod.mk.injEq, Decoder.mk.injEq, true_and]
  refine ⟨?_, trivial⟩
  simp only [questionWire, List.length_append, tyWire_length, clsWire_length]
  omega

theorem Record.decode_parse_record (r : Record) (d : Decoder) (pre post : List Nat)
    (hr : validRecord r) (hbuf : d.buf = pre ++ recordWire r ++ post)
    (hoff : d.offset = pre.length) :
    ∃ tbl, Record.decode d =
      .ok (r, ⟨d.buf, d.offset + (recordWire r).length, tbl ++ d.labels⟩) := by
  obtain ⟨hn, ht, hc, httl, hrd⟩ := hr
  obtain ⟨tbl, hname⟩ := Name.decode_parse_name r.name.str d pre
    (tyWire r.rtype ++ (clsWire r.cls ++ (wireU32 r.ttl ++ (wireU16 r.rdata.length ++ r.rdata)
      ++ post))) hn
    (by simpa [recordWire, List.append_assoc] using hbuf) hoff
  have hty := Ty.decode_parse_ty ⟨d.buf, d.offset + (nameWire r.name.str).length, tbl ++ d.labels⟩
    (pre ++ nameWire r.name.str)
    (clsWire r.cls ++ (wireU32 r.ttl ++ (wireU16 r.rdata.length ++ r.rdata) ++ post)) r.rtype ht
    (by simp [hbuf, recordWire, List.append_assoc]) (by simp [hoff]; try omega)
  have hcls := Cls.decode_parse_cls
    ⟨d.buf, d.offset + (nameWire r.name.str).length + 2, tbl ++ d.labels⟩
    (pre ++ nameWire r.name.str ++ tyWire r.rtype)
    (wireU32 r.ttl ++ (wireU16 r.rdata.length ++ r.rdata) ++ post) r.cls hc
    (by simp [hbuf, recordWire, List.append_assoc]) (by simp [hoff]; try omega)
  have httl32 := Decoder.read_u32_parse
    ⟨d.buf, d.offset + (nameWire r.name.str).length + 2 + 2, tbl ++ d.labels⟩
    (pre ++ nameWire r.name.str ++ tyWire r.rtype ++ clsWire r.cls)
    (wireU16 r.rdata.length ++ r.rdata ++ post) r.ttl httl
    (by simp [hbuf, recordWire, List.append_assoc]) (by simp [hoff]; try omega)
  have hlen16 := Decoder.read_u16_parse
    ⟨d.buf, d.offset + (nameWire r.name.str).length + 2 + 2 + 4, tbl ++ d.labels⟩
    (pre ++ nameWire r.name.str ++ tyWire r.rtype ++ clsWire r.cls ++ wireU32 r.ttl)
    (r.rdata ++ post) r.rdata.length hrd
    (by simp [hbuf, recordWire, List.append_assoc]) (by simp [hoff]; try omega)
  have hdata := Decoder.read_slice_parse
    ⟨d.buf, d.offset + (nameWire r.name.str).length + 2 + 2 + 4 + 2, tbl ++ d.labels⟩
    (pre ++ nameWire r.name.str ++ tyWire r.rtype ++ clsWire r.cls ++ wireU32 r.ttl ++
      wireU16 r.rdata.length)
    r.rdata post r.rdata.length rfl
    (by simp [hbuf, recordWire, List.append_assoc]) (by simp [hoff]; try omega)
  refine ⟨tbl, ?_⟩
  simp only [Record.decode, hname, hty, hcls, httl32, hlen16, hdata]
  simp only [Except.ok.injEq, Prod.mk.injEq, Decoder.mk.injEq, true_and]
  refine ⟨?_, trivial⟩
  simp only [recordWire, List.length_append, tyWire_length, clsWire_length, wireU16_length,
    wireU32_length]
  omega

theorem decodeN_questions_parse (qs : List Question) :
    ∀ (d : Decoder) (pre post : List Nat),
      (∀ q ∈ qs, validQuestion q) →
      d.buf = pre ++ wcat (qs.map questionWire) ++ post →
      d.offset = pre.length →
      ∃ tbl, decodeN Question.decode qs.length d =
        .ok (qs, ⟨d.buf, d.offset + (wcat (qs.map questionWire)).length, tbl ++ d.labels⟩) := by
  induction qs with
  | nil =>
    intro d pre post _ hbuf hoff
    exact ⟨[], by simp [decodeN, wcat]⟩
  | cons q qs ih =>
    intro d pre post hv hbuf hoff
    obtain ⟨tbl1, h1⟩ := Question.decode_parse_question q d pre (wcat (qs.map questionWire) ++ post)
      (hv q (by simp)) (by simpa [wcat, List.append_assoc] using hbuf) hoff
    obtain ⟨tbl2, h2⟩ := ih ⟨d.buf, d.offset + (questionWire q).length, tbl1 ++ d.labels⟩
      (pre ++ questionWire q) post (fun x hx => hv x (by simp [hx]))
      (by simp [hbuf, wcat, List.append_assoc]) (by simp [hoff]; try omega)
    refine ⟨tbl2 ++ tbl1, ?_⟩
    simp only [List.length_cons, decodeN, h1, h2]
    simp only [Except.ok.injEq, Prod.mk.injEq, Decoder.mk.injEq, true_and]
    refine ⟨?_, by simp⟩
    simp only [List.map_cons, wcat, List.length_append]
    omega

theorem decodeN_records_parse (rs : List Record) :
    ∀ (d : Decoder) (pre post : List Nat),
      (∀ r ∈ rs, validRecord r) →
      d.buf = pre ++ wcat (rs.map recordWire) ++ post →
      d.offset = pre.length →
      ∃ tbl, decodeN Record.decode rs.length d =
        .ok (rs, ⟨d.buf, d.offset + (wcat (rs.map recordWire)).length, tbl ++ d.labels⟩) := by
  induction rs with
  | nil =>
    intro d pre post _ hbuf hoff
    exact ⟨[], by simp [decodeN, wcat]⟩
  | cons r rs ih =>
    intro d pre post hv hbuf hoff
    obtain ⟨tbl1, h1⟩ := Record.decode_parse_record r d pre (wcat (rs.map recordWire) ++ post)
      (hv r (by simp)) (by simpa [wcat, List.append_assoc] using hbuf) hoff
    obtain ⟨tbl2, h2⟩ := ih ⟨d.buf, d.offset + (recordWire r).length, tbl1 ++ d.labels⟩
      (pre ++ recordWire r) post (fun x hx => hv x (by simp [hx]))
      (by simp [hbuf, wcat, List.append_assoc]) (by simp [hoff]; try omega)
    refine ⟨tbl2 ++ tbl1, ?_⟩
    simp only [List.length_cons, decodeN, h1, h2]
    simp only [Except.ok.injEq, Prod.mk.injEq, Decoder.mk.injEq, true_and]
    refine ⟨?_, by simp⟩
    simp only [List.map_cons, wcat, List.length_append]
    omega

theorem encode_labels_fold (ls : List (List Nat)) :
    ∀ e : Encoder, e.offset = e.buf.length →
      ls.foldl (fun e l => (e.write_u8 (l.length % 256)).write_str l) e =
        ⟨e.offset + (wireLabels ls).length, e.buf ++ wireLabels ls⟩ := by
  induction ls with
  | nil => intro e h; simp [wireLabels]
  | cons l ls ih =>
    intro e h
    rw [List.foldl_cons, Encoder.write_u8_append e _ h, Encoder.write_str,
      Encoder.write_slice_append ⟨e.offset + 1, e.buf ++ [l.length % 256]⟩ l (by simp [h]),
      ih ⟨e.offset + 1 + l.length, (e.buf ++ [l.length % 256]) ++ l⟩ (by simp [h]; omega)]
    simp only [Encoder.mk.injEq, wireLabels, List.length_cons, List.length_append]
    constructor
    · omega
    · simp [List.append_assoc]

theorem Name.encode_append_name (n : Name) (e : Encoder) (h : e.offset = e.buf.length) :
    n.encode e = ⟨e.offset + (nameWire n.str).length, e.buf ++ nameWire n.str⟩ := by
  rw [Name.encode, encode_labels_fold (splitDots n.str) e h,
    Encoder.write_u8_append ⟨e.offset + (wireLabels (splitDots n.str)).length,
      e.buf ++ wireLabels (splitDots n.str)⟩ 0 (by simp [h])]
  simp only [Encoder.mk.injEq, nameWire, List.length_append, List.length_singleton]
  constructor
  · omega
  · simp [List.append_assoc]

theorem Question.encode_append_question (q : Question) (e : Encoder) (h : e.offset = e.buf.length) :
    q.encode e = ⟨e.offset + (questionWire q).length, e.buf ++ questionWire q⟩ := by
  rw [Question.encode, Name.encode_append_name q.name e h, Ty.encode,
    Encoder.write_u16_append ⟨e.offset + (nameWire q.name.str).length,
      e.buf ++ nameWire q.name.str⟩ q.qtype.code (by simp [h]),
    Cls.encode,
    Encoder.write_u16_append ⟨e.offset + (nameWire q.name.str).length + 2,
      (e.buf ++ nameWire q.name.str) ++ wireU16 q.qtype.code⟩ q.cls.code (by simp [h]; omega)]
  simp only [Encoder.mk.injEq, questionWire, tyWire, clsWire, List.length_append,
    wireU16_length]
  constructor
  · omega
  · simp [List.append_assoc]

theorem Record.encode_append_record (r : Record) (e : Encoder) (h : e.offset = e.buf.length) :
    r.encode e = ⟨e.offset + (recordWire r).length, e.buf ++ recordWire r⟩ := by
  rw [Record.encode, Name.encode_append_name r.name e h, Ty.encode,
    Encoder.write_u16_append ⟨e.offset + (nameWire r.name.str).length,
      e.buf ++ nameWire r.name.str⟩ r.rtype.code (by simp [h]),
    Cls.encode,
    Encoder.write_u16_append ⟨e.offset + (nameWire r.name.str).length + 2,
      (e.buf ++ nameWire r.name.str) ++ wireU16 r.rtype.code⟩ r.cls.code (by simp [h]; omega),
    Encoder.write_u32_append ⟨e.offset + (nameWire r.name.str).length + 2 + 2,
      ((e.buf ++ nameWire r.name.str) ++ wireU16 r.rtype.code) ++ wireU16 r.cls.code⟩
      r.ttl (by simp [h]; omega),
    Encoder.write_u16_append ⟨e.offset + (nameWire r.name.str).length + 2 + 2 + 4,
      (((e.buf ++ nameWire r.name.str) ++ wireU16 r.rtype.code) ++ wireU16 r.cls.code) ++
        wireU32 r.ttl⟩ r.rdata.length (by simp [h]; omega),
    Encoder.write_slice_append ⟨e.offset + (nameWire r.name.str).length + 2 + 2 + 4 + 2,
      ((((e.buf ++ nameWire r.name.str) ++ wireU16 r.rtype.code) ++ wireU16 r.cls.code) ++
        wireU32 r.ttl) ++ wireU16 r.rdata.length⟩ r.rdata (by simp [h]; omega)]
  simp only [Encoder.mk.injEq, recordWire, tyWire, clsWire, List.length_append,
    wireU16_length, wireU32_length]
  constructor
  · omega
  · simp [List.append_assoc]

theorem Question.encode_fold_question (qs : List Question) :
    ∀ e : Encoder, e.offset = e.buf.length →
      qs.foldl (fun e q => q.encode e) e =
        ⟨e.offset + (wcat (qs.map questionWire)).length, e.buf ++ wcat (qs.map questionWire)⟩ := by
  induction qs with
  | nil => intro e h; simp [wcat]
  | cons q qs ih =>
    intro e h
    rw [List.foldl_cons, Question.encode_append_question q e h,
      ih ⟨e.offset + (questionWire q).length, e.buf ++ questionWire q⟩ (by simp [h])]
    simp only [Encoder.mk.injEq, List.map_cons, wcat, List.length_append]
    constructor
    · omega
    · simp [List.append_assoc]

theorem Record.encode_fold_record (rs : List Record) :
    ∀ e : Encoder, e.offset = e.buf.length →
      rs.foldl (fun e r => r.encode e) e =
        ⟨e.offset + (wcat (rs.map recordWire)).length, e.buf ++ wcat (rs.map recordWire)⟩ := by
  induction rs with
  | nil => intro e h; simp [wcat]
  | cons r rs ih =>
    intro e h
    rw [List.foldl_cons, Record.encode_append_record r e h,
      ih ⟨e.offset + (recordWire r).length, e.buf ++ recordWire r⟩ (by simp [h])]
    simp only [Encoder.mk.injEq, List.map_cons, wcat, List.length_append]
    constructor
    · omega
    · simp [List.append_assoc]

theorem Message.encode_shape (m : Message) (e : Encoder) (h : e.offset = e.buf.length) :
    m.encode e = .ok ⟨e.offset + (msgWire m).length, e.buf ++ msgWire m⟩ := by
  have s1 := Encoder.write_u16_append e m.id h
  have s2 := Encoder.write_bits_flag1 ⟨e.offset + 2, e.buf ++ wireU16 m.id⟩
    m.qr m.opcode m.aa m.tc m.rd (by simp [h])
  have s3 := Encoder.write_bits_flag2 ⟨e.offset + 2 + 1,
    (e.buf ++ wireU16 m.id) ++ [mkFlag1 m.qr m.opcode m.aa m.tc m.rd]⟩
    m.ra m.z m.rcode (by simp [h]; try omega)
  have s4 := Encoder.write_u16_append ⟨e.offset + 2 + 1 + 1,
    ((e.buf ++ wireU16 m.id) ++ [mkFlag1 m.qr m.opcode m.aa m.tc m.rd]) ++
      [mkFlag2 m.ra m.z m.rcode]⟩ m.questions.length (by simp [h]; try omega)
  have s5 := Encoder.write_u16_append ⟨e.offset + 2 + 1 + 1 + 2,
    (((e.buf ++ wireU16 m.id) ++ [mkFlag1 m.qr m.opcode m.aa m.tc m.rd]) ++
      [mkFlag2 m.ra m.z m.rcode]) ++ wireU16 m.questions.length⟩
    m.answers.length (by simp [h]; try omega)
  have s6 := Encoder.write_u16_append ⟨e.offset + 2 + 1 + 1 + 2 + 2,
    ((((e.buf ++ wireU16 m.id) ++ [mkFlag1 m.qr m.opcode m.aa m.tc m.rd]) ++
      [mkFlag2 m.ra m.z m.rcode]) ++ wireU16 m.questions.length) ++ wireU16 m.answers.length⟩
    m.nscount (by simp [h]; try omega)
  have s7 := Encoder.write_u16_append ⟨e.offset + 2 + 1 + 1 + 2 + 2 + 2,
    (((((e.buf ++ wireU16 m.id) ++ [mkFlag1 m.qr m.opcode m.aa m.tc m.rd]) ++
      [mkFlag2 m.ra m.z m.rcode]) ++ wireU16 m.questions.length) ++ wireU16 m.answers.length) ++
      wireU16 m.nscount⟩ m.arcount (by simp [h]; try omega)
  have s8 := Question.encode_fold_question m.questions ⟨e.offset + 2 + 1 + 1 + 2 + 2 + 2 + 2,
    ((((((e.buf ++ wireU16 m.id) ++ [mkFlag1 m.qr m.opcode m.aa m.tc m.rd]) ++
      [mkFlag2 m.ra m.z m.rcode]) ++ wireU16 m.questions.length) ++ wireU16 m.answers.length) ++
      wireU16 m.nscount) ++ wireU16 m.arcount⟩ (by simp [h]; try omega)
  have s9 := Record.encode_fold_record m.answers ⟨e.offset + 2 + 1 + 1 + 2 + 2 + 2 + 2 +
      (wcat (m.questions.map questionWire)).length,
    (((((((e.buf ++ wireU16 m.id) ++ [mkFlag1 m.qr m.opcode m.aa m.tc m.rd]) ++
      [mkFlag2 m.ra m.z m.rcode]) ++ wireU16 m.questions.length) ++ wireU16 m.answers.length) ++
      wireU16 m.nscount) ++ wireU16 m.arcount) ++ wcat (m.questions.map questionWire)⟩
    (by simp [h]; try omega)
  simp only [Message.encode, s1, s2, s3, s4, s5, s6, s7, s8, s9]
  simp only [Except.ok.injEq, Encoder.mk.injEq, msgWire, List.length_append,
    wireU16_length, List.length_singleton]
  constructor
  · omega
  · simp [List.append_assoc]

theorem Message.to_bytes_eq (m : Message) : m.to_bytes = .ok (msgWire m) := by
  rw [Message.to_bytes, Message.encode_shape m ⟨0, []⟩ rfl]
  simp

theorem Message.decode_parse_message (m : Message) (d : Decoder) (pre post : List Nat)
    (hm : validMessage m) (hbuf : d.buf = pre ++ msgWire m ++ post)
    (hoff : d.offset = pre.length) :
    ∃ tbl, Message.decode d =
      .ok (m, ⟨d.buf, d.offset + (msgWire m).length, tbl ++ d.labels⟩) := by
  obtain ⟨hid, hqr, hop, haa, htc, hrd, hra, hz, hrc, hns, har, hql, hal, hqv, hav⟩ := hm
  have hb1 : d.buf = pre ++ wireU16 m.id ++ ([mkFlag1 m.qr m.opcode m.aa m.tc m.rd] ++ ([mkFlag2 m.ra m.z m.rcode] ++ (wireU16 m.questions.length ++ (wireU16 m.answers.length ++ (wireU16 m.nscount ++ (wireU16 m.arcount ++ (wcat (m.questions.map questionWire) ++ (wcat (m.answers.map recordWire) ++ post)))))))) := by
    simp only [hbuf, msgWire, List.append_assoc, List.cons_append, List.singleton_append,
      List.nil_append, List.append_nil]
  have h1 := Decoder.read_u16_parse d pre _ m.id hid hb1 hoff
  have hb2 : d.buf = (pre ++ wireU16 m.id) ++ mkFlag1 m.qr m.opcode m.aa m.tc m.rd :: ([mkFlag2 m.ra m.z m.rcode] ++ (wireU16 m.questions.length ++ (wireU16 m.answers.length ++ (wireU16 m.nscount ++ (wireU16 m.arcount ++ (wcat (m.questions.map questionWire) ++ (wcat (m.answers.map recordWire) ++ post))))))) := by
    simp only [hbuf, msgWire, List.append_assoc, List.cons_append, List.singleton_append,
      List.nil_append, List.append_nil]
  have h2 := Decoder.read_bits_parse ⟨d.buf, d.offset + 2, d.labels⟩ (pre ++ wireU16 m.id) _
    (mkFlag1 m.qr m.opcode m.aa m.tc m.rd) [1, 4, 1, 1, 1] [m.qr, m.opcode, m.aa, m.tc, m.rd]
    ⟨mkFlag1 m.qr m.opcode m.aa m.tc m.rd, 8⟩
    (bitsReadList_flag1 m.qr hqr m.opcode hop m.aa haa m.tc htc m.rd hrd) hb2
    (by simp [hoff]; try omega)
  have hb3 : d.buf = (pre ++ wireU16 m.id ++ [mkFlag1 m.qr m.opcode m.aa m.tc m.rd]) ++ mkFlag2 m.ra m.z m.rcode :: (wireU16 m.questions.length ++ (wireU16 m.answers.length ++ (wireU16 m.nscount ++ (wireU16 m.arcount ++ (wcat (m.questions.map questionWire) ++ (wcat (m.answers.map recordWire) ++ post)))))) := by
    simp only [hbuf, msgWire, List.append_assoc, List.cons_append, List.singleton_append,
      List.nil_append, List.append_nil]
  have h3 := Decoder.read_bits_parse ⟨d.buf, d.offset + 2 + 1, d.labels⟩ (pre ++ wireU16 m.id ++ [mkFlag1 m.qr m.opcode m.aa m.tc m.rd]) _
    (mkFlag2 m.ra m.z m.rcode) [1, 3, 4] [m.ra, m.z, m.rcode]
    ⟨mkFlag2 m.ra m.z m.rcode, 8⟩
    (bitsReadList_flag2 m.ra hra m.z hz m.rcode hrc) hb3
    (by simp [hoff]; try omega)
  have hb4 : d.buf = (pre ++ wireU16 m.id ++ [mkFlag1 m.qr m.opcode m.aa m.tc m.rd] ++ [mkFlag2 m.ra m.z m.rcode]) ++ wireU16 m.questions.length ++ (wireU16 m.answers.length ++ (wireU16 m.nscount ++ (wireU16 m.arcount ++ (wcat (m.questions.map questionWire) ++ (wcat (m.answers.map recordWire) ++ post))))) := by
    simp only [hbuf, msgWire, List.append_assoc, List.cons_append, List.singleton_append,
      List.nil_append, List.append_nil]
  have h4 := Decoder.read_u16_parse ⟨d.buf, d.offset + 2 + 1 + 1, d.labels⟩
    (pre ++ wireU16 m.id ++ [mkFlag1 m.qr m.opcode m.aa m.tc m.rd] ++ [mkFlag2 m.ra m.z m.rcode]) _ m.questions.length hql hb4 (by simp [hoff]; try omega)
  have hb5 : d.buf = (pre ++ wireU16 m.id ++ [mkFlag1 m.qr m.opcode m.aa m.tc m.rd] ++ [mkFlag2 m.ra m.z m.rcode] ++ wireU16 m.questions.length) ++ wireU16 m.answers.length ++ (wireU16 m.nscount ++ (wireU16 m.arcount ++ (wcat (m.questions.map questionWire) ++ (wcat (m.answers.map recordWire) ++ post)))) := by
    simp only [hbuf, msgWire, List.append_assoc, List.cons_append, List.singleton_append,
      List.nil_append, List.append_nil]
  have h5 := Decoder.read_u16_parse ⟨d.buf, d.offset + 2 + 1 + 1 + 2, d.labels⟩
    (pre ++ wireU16 m.id ++ [mkFlag1 m.qr m.opcode m.aa m.tc m.rd] ++ [mkFlag2 m.ra m.z m.rcode] ++ wireU16 m.questions.length) _ m.answers.length hal hb5 (by simp [hoff]; try omega)
  have hb6 : d.buf = (pre ++ wireU16 m.id ++ [mkFlag1 m.qr m.opcode m.aa m.tc m.rd] ++ [mkFlag2 m.ra m.z m.rcode] ++ wireU16 m.questions.length ++ wireU16 m.answers.length) ++ wireU16 m.nscount ++ (wireU16 m.arcount ++ (wcat (m.questions.map questionWire) ++ (wcat (m.answers.map recordWire) ++ post))) := by
    simp only [hbuf, msgWire, List.append_assoc, List.cons_append, List.singleton_append,
      List.nil_append, List.append_nil]
  have h6 := Decoder.read_u16_parse ⟨d.buf, d.offset + 2 + 1 + 1 + 2 + 2, d.labels⟩
    (pre ++ wireU16 m.id ++ [mkFlag1 m.qr m.opcode m.aa m.tc m.rd] ++ [mkFlag2 m.ra m.z m.rcode] ++ wireU16 m.questions.length ++ wireU16 m.answers.length) _ m.nscount hns hb6 (by simp [hoff]; try omega)
  have hb7 : d.buf = (pre ++ wireU16 m.id ++ [mkFlag1 m.qr m.opcode m.aa m.tc m.rd] ++ [mkFlag2 m.ra m.z m.rcode] ++ wireU16 m.questions.length ++ wireU16 m.answers.length ++ wireU16 m.nscount) ++ wireU16 m.arcount ++ (wcat (m.questions.map questionWire) ++ (wcat (m.answers.map recordWire) ++ post)) := by
    simp only [hbuf, msgWire, List.append_assoc, List.cons_append, List.singleton_append,
      List.nil_append, List.append_nil]
  have h7 := Decoder.read_u16_parse ⟨d.buf, d.offset + 2 + 1 + 1 + 2 + 2 + 2, d.labels⟩
    (pre ++ wireU16 m.id ++ [mkFlag1 m.qr m.opcode m.aa m.tc m.rd] ++ [mkFlag2 m.ra m.z m.rcode] ++ wireU16 m.questions.length ++ wireU16 m.answers.length ++ wireU16 m.nscount) _ m.arcount har hb7 (by simp [hoff]; try omega)
  have hb8 : d.buf = (pre ++ wireU16 m.id ++ [mkFlag1 m.qr m.opcode m.aa m.tc m.rd] ++ [mkFlag2 m.ra m.z m.rcode] ++ wireU16 m.questions.length ++ wireU16 m.answers.length ++ wireU16 m.nscount ++ wireU16 m.arcount) ++ wcat (m.questions.map questionWire) ++ (wcat (m.answers.map recordWire) ++ post) := by
    simp only [hbuf, msgWire, List.append_assoc, List.cons_append, List.singleton_append,
      List.nil_append, List.append_nil]
  obtain ⟨tblq, h8⟩ := decodeN_questions_parse m.questions
    ⟨d.buf, d.offset + 2 + 1 + 1 + 2 + 2 + 2 + 2, d.labels⟩
    (pre ++ wireU16 m.id ++ [mkFlag1 m.qr m.opcode m.aa m.tc m.rd] ++ [mkFlag2 m.ra m.z m.rcode] ++ wireU16 m.questions.length ++ wireU16 m.answers.length ++ wireU16 m.nscount ++ wireU16 m.arcount) (wcat (m.answers.map recordWire) ++ post) hqv hb8 (by simp [hoff]; try omega)
  have hb9 : d.buf = (pre ++ wireU16 m.id ++ [mkFlag1 m.qr m.opcode m.aa m.tc m.rd] ++ [mkFlag2 m.ra m.z m.rcode] ++ wireU16 m.questions.length ++ wireU16 m.answers.length ++ wireU16 m.nscount ++ wireU16 m.arcount ++ wcat (m.questions.map questionWire)) ++ wcat (m.answers.map recordWire) ++ post := by
    simp only [hbuf, msgWire, List.append_assoc, List.cons_append, List.singleton_append,
      List.nil_append, List.append_nil]
  obtain ⟨tbla, h9⟩ := decodeN_records_parse m.answers
    ⟨d.buf, d.offset + 2 + 1 + 1 + 2 + 2 + 2 + 2 + (wcat (m.questions.map questionWire)).length, tblq ++ d.labels⟩
    (pre ++ wireU16 m.id ++ [mkFlag1 m.qr m.opcode m.aa m.tc m.rd] ++ [mkFlag2 m.ra m.z m.rcode] ++ wireU16 m.questions.length ++ wireU16 m.answers.length ++ wireU16 m.nscount ++ wireU16 m.arcount ++ wcat (m.questions.map questionWire)) post hav hb9 (by simp [hoff]; try omega)
  refine ⟨tbla ++ tblq, ?_⟩
  simp only [Message.decode, h1, h2, h3, h4, h5, h6, h7, h8, h9]
  simp only [List.getD_cons_zero, List.getD_cons_succ]
  simp only [Except.ok.injEq, Prod.mk.injEq, Decoder.mk.injEq, true_and]
  refine ⟨?_, ?_⟩
  · simp only [msgWire, List.length_append, wireU16_length, List.length_singleton]
    omega
  · simp [List.append_assoc]

theorem and1_mod (x : Nat) : (x % 2) &&& 1 = x &&& 1 := by
  simp only [Nat.and_one_is_mod]
  omega

theorem and15_mod (x : Nat) : (x % 16) &&& 15 = x &&& 15 := by
  have h1 := Nat.and_pow_two_sub_one_eq_mod (x % 16) 4
  have h2 := Nat.and_pow_two_sub_one_eq_mod x 4
  norm_num at h1 h2
  rw [h1, h2]

theorem and7_mod (x : Nat) : (x % 8) &&& 7 = x &&& 7 := by
  have h1 := Nat.and_pow_two_sub_one_eq_mod (x % 8) 3
  have h2 := Nat.and_pow_two_sub_one_eq_mod x 3
  norm_num at h1 h2
  rw [h1, h2]

theorem mkFlag1_mask (a b c d e : Nat) :
    mkFlag1 (a % 2) (b % 16) (c % 2) (d % 2) (e % 2) = mkFlag1 a b c d e := by
  simp only [mkFlag1, and1_mod, and15_mod]

theorem mkFlag2_mask (a b c : Nat) :
    mkFlag2 (a % 2) (b % 8) (c % 16) = mkFlag2 a b c := by
  simp only [mkFlag2, and1_mod, and7_mod, and15_mod]

/-- C1 (amended): for every Message whose questions and answers lists fit the
16-bit counts, whose bit fields are within their declared widths, whose
question and answer names split into labels of 1–63 bytes of valid UTF-8,
whose types and classes carry codes decode maps back to the same variant, and
whose records have 16-bit-sized rdata and 32-bit ttl, decoding the bytes
produced by encoding the message yields the message again. -/
theorem Message.roundtrip_of_valid_message (m : Message) (h : validMessage m) :
    (Message.to_bytes m).bind Message.from_bytes = .ok m := by
  rw [Message.to_bytes_eq]
  show Message.from_bytes (msgWire m) = .ok m
  obtain ⟨tbl, hdec⟩ := Message.decode_parse_message m ⟨msgWire m, 0, []⟩ [] [] h (by simp) rfl
  simp only [Message.from_bytes, hdec]

/-- C1 witness: the concrete message of spec section 8 — one question and one
answer for codecrafters.io — round-trips. -/
theorem Message.roundtrip_witness_message :
    (Message.to_bytes
        { id := 1, qr := 0, opcode := 0, aa := 1, tc := 0, rd := 0, ra := 0, z := 0,
          rcode := 0, nscount := 0, arcount := 0,
          questions := [{ name := ⟨[99, 111, 100, 101, 99, 114, 97, 102, 116, 101, 114, 115,
            46, 105, 111]⟩, qtype := .A, cls := .IN }],
          answers := [{ name := ⟨[99, 111, 100, 101, 99, 114, 97, 102, 116, 101, 114, 115,
            46, 105, 111]⟩, rtype := .A, cls := .IN, ttl := 60, rdata := [8, 8, 8, 8] }] }).bind
      Message.from_bytes =
      .ok { id := 1, qr := 0, opcode := 0, aa := 1, tc := 0, rd := 0, ra := 0, z := 0,
            rcode := 0, nscount := 0, arcount := 0,
            questions := [{ name := ⟨[99, 111, 100, 101, 99, 114, 97, 102, 116, 101, 114, 115,
              46, 105, 111]⟩, qtype := .A, cls := .IN }],
            answers := [{ name := ⟨[99, 111, 100, 101, 99, 114, 97, 102, 116, 101, 114, 115,
              46, 105, 111]⟩, rtype := .A, cls := .IN, ttl := 60, rdata := [8, 8, 8, 8] }] } :=
  Message.roundtrip_of_valid_message _ (by decide)

/-- C1 counterexample: a Message whose qr flag exceeds its 1-bit width (qr=2)
has questions and answers well within 65535 entries, yet
decode (encode m) returns a different message (the flag is masked to 0), so
the claim as stated — for every Message with counts at most 65535 — fails. -/
theorem Message.roundtrip_counterexample :
    ({ id := 0, qr := 2, opcode := 0, aa := 0, tc := 0, rd := 0, ra := 0, z := 0, rcode := 0,
       nscount := 0, arcount := 0, questions := [], answers := [] } : Message).questions.length
        ≤ 65535 ∧
    ({ id := 0, qr := 2, opcode := 0, aa := 0, tc := 0, rd := 0, ra := 0, z := 0, rcode := 0,
       nscount := 0, arcount := 0, questions := [], answers := [] } : Message).answers.length
        ≤ 65535 ∧
    (Message.to_bytes
        { id := 0, qr := 2, opcode := 0, aa := 0, tc := 0, rd := 0, ra := 0, z := 0, rcode := 0,
          nscount := 0, arcount := 0, questions := [], answers := [] }).bind Message.from_bytes ≠
      .ok { id := 0, qr := 2, opcode := 0, aa := 0, tc := 0, rd := 0, ra := 0, z := 0, rcode := 0,
            nscount := 0, arcount := 0, questions := [], answers := [] } := by decide

/-- C2: for every domain name whose dot-separated labels are each 1 to 63
bytes (and are valid UTF-8, the invariant of the Rust String the name is),
decoding the wire bytes produced by Name::encode returns exactly that name. -/
theorem Name.roundtrip_of_valid_name (n : List Nat) (h : validName n) :
    (Name.decode ⟨(Name.encode ⟨n⟩ ⟨0, []⟩).buf, 0, []⟩).map Prod.fst = .ok ⟨n⟩ := by
  have henc := Name.encode_append_name ⟨n⟩ ⟨0, []⟩ rfl
  have hbufeq : (Name.encode ⟨n⟩ ⟨0, []⟩).buf = nameWire n := by rw [henc]; simp
  rw [hbufeq]
  obtain ⟨tbl, hdec⟩ := Name.decode_parse_name n ⟨nameWire n, 0, []⟩ [] [] h (by simp) rfl
  rw [hdec]
  rfl

/-- C2 witness: the name `abc.de` round-trips through encode then decode. -/
theorem Name.roundtrip_witness_name :
    (Name.decode ⟨(Name.encode ⟨[97, 98, 99, 46, 100, 101]⟩ ⟨0, []⟩).buf, 0, []⟩).map
        Prod.fst = .ok ⟨[97, 98, 99, 46, 100, 101]⟩ :=
  Name.roundtrip_of_valid_name [97, 98, 99, 46, 100, 101] (by decide)

/-- C3: with `codecrafters.io` written at offset 0 and a compression pointer
`0xC0 0x00` back to offset 0 at offset 17, decoding the second occurrence
yields only the single label `codecrafters` recorded at offset 0 in the label
table — not the full dotted name — because `read_label` stores one label per
offset and the pointer lookup splices in exactly that entry. -/
theorem Decoder.read_name_pointer_single_label :
    (Name.decode ⟨[12, 99, 111, 100, 101, 99, 114, 97, 102, 116, 101, 114, 115, 2, 105, 111,
        0, 192, 0], 0, []⟩).map (fun p => (p.1, p.2.offset)) =
      .ok (⟨[99, 111, 100, 101, 99, 114, 97, 102, 116, 101, 114, 115, 46, 105, 111]⟩, 17) ∧
    ((Name.decode ⟨[12, 99, 111, 100, 101, 99, 114, 97, 102, 116, 101, 114, 115, 2, 105, 111,
        0, 192, 0], 0, []⟩).bind (fun p => Name.decode p.2)).map Prod.fst =
      .ok ⟨[99, 111, 100, 101, 99, 114, 97, 102, 116, 101, 114, 115]⟩ ∧
    (⟨[99, 111, 100, 101, 99, 114, 97, 102, 116, 101, 114, 115]⟩ : Name) ≠
      ⟨[99, 111, 100, 101, 99, 114, 97, 102, 116, 101, 114, 115, 46, 105, 111]⟩ := by decide

/-- C5: read_slice fails with the Read error carrying exactly the current
offset, the requested length and the buffer length precisely when the request
crosses the end of the buffer; otherwise it returns the len bytes of the
buffer starting at the offset and advances the offset by len. -/
theorem Decoder.read_slice_bounds (d : Decoder) (len : Nat) :
    (d.buf.length < d.offset + len →
        d.read_slice len = .error (.Read d.offset len d.buf.length)) ∧
    (d.offset + len ≤ d.buf.length →
        d.read_slice len =
          .ok ((d.buf.drop d.offset).take len, ⟨d.buf, d.offset + len, d.labels⟩) ∧
        ((d.buf.drop d.offset).take len).length = len ∧
        ∀ i < len, ((d.buf.drop d.offset).take len).getD i 0 = d.buf.getD (d.offset + i) 0) := by
  constructor
  · intro h
    rw [Decoder.read_slice, if_pos h]
  · intro h
    refine ⟨by rw [Decoder.read_slice, if_neg (by omega)], ?_, ?_⟩
    · simp only [List.length_take, List.length_drop]
      omega
    · intro i hi
      simp only [List.getD_eq_getElem?_getD]
      rw [List.getElem?_take_of_lt hi, List.getElem?_drop]

/-- C5 witness: on the buffer [1,2,3], reading 2 bytes at offset 1 succeeds
with [2,3]; reading 2 bytes at offset 2 fails with Read 2 2 3. -/
theorem Decoder.read_slice_bounds_witness :
    Decoder.read_slice ⟨[1, 2, 3], 1, []⟩ 2 = .ok ([2, 3], ⟨[1, 2, 3], 3, []⟩) ∧
    Decoder.read_slice ⟨[1, 2, 3], 2, []⟩ 2 = .error (.Read 2 2 3) := by
  constructor
  · exact ((Decoder.read_slice_bounds ⟨[1, 2, 3], 1, []⟩ 2).2 (by decide)).1
  · exact (Decoder.read_slice_bounds ⟨[1, 2, 3], 2, []⟩ 2).1 (by decide)

/-- C6: evaluating BitEncoder::write at value 0xFF, width 8, offset 0 — a
width the guards accept — returns Ok with data byte 0, not 0xFF: the mask
`1u8 << 8` overflows (debug builds panic; in release the shift count wraps
and the mask is 0), so the low 8 bits of the value are not placed. -/
theorem BitEncoder.write_width8_bug :
    BitEncoder.write ⟨0, 0⟩ 255 8 = .ok ⟨0, 8⟩ := by decide

/-- C7: set_offset past the end of a [1,2,3] buffer to position 5 calls
`resize(5 - 3, 0)`, truncating the buffer to [1,2] (length 2, below 5, and
the byte 3 destroyed) instead of zero-filling it to length 5. -/
theorem Encoder.set_offset_bug :
    Encoder.set_offset ⟨0, [1, 2, 3]⟩ 5 = ⟨5, [1, 2]⟩ ∧
    (Encoder.set_offset ⟨0, [1, 2, 3]⟩ 5).buf.length < 5 := by decide

/-- C8: for every 16-bit code, Type::decode and Class::decode succeed — an
unmapped code becomes the UNKNOWN escape variant — and re-encoding the
decoded value writes back exactly the same two wire bytes. -/
theorem codes_unknown_roundtrip (v : Nat) (hv : v < 65536) :
    (Ty.decode ⟨wireU16 v, 0, []⟩ = .ok (Ty.ofCode v, ⟨wireU16 v, 2, []⟩) ∧
      (Ty.encode (Ty.ofCode v) ⟨0, []⟩).buf = wireU16 v) ∧
    (Cls.decode ⟨wireU16 v, 0, []⟩ = .ok (Cls.ofCode v, ⟨wireU16 v, 2, []⟩) ∧
      (Cls.encode (Cls.ofCode v) ⟨0, []⟩).buf = wireU16 v) := by
  have h := Decoder.read_u16_parse ⟨wireU16 v, 0, []⟩ [] [] v hv (by simp) rfl
  refine ⟨⟨?_, ?_⟩, ?_, ?_⟩
  · simp only [Ty.decode, h]
  · rw [Ty.encode, Encoder.write_u16_append _ _ rfl, Ty.code_ofCode_ty]
    simp
  · simp only [Cls.decode, h]
  · rw [Cls.encode, Encoder.write_u16_append _ _ rfl, Cls.code_ofCode_cls]
    simp

/-- C8 witness: code 31337 has no named variant; it decodes to UNKNOWN 31337
for both Type and Class and re-encodes to the same two bytes. -/
theorem codes_unknown_roundtrip_witness :
    (Ty.decode ⟨wireU16 31337, 0, []⟩ = .ok (.UNKNOWN 31337, ⟨wireU16 31337, 2, []⟩) ∧
      (Ty.encode (.UNKNOWN 31337) ⟨0, []⟩).buf = wireU16 31337) ∧
    (Cls.decode ⟨wireU16 31337, 0, []⟩ = .ok (.UNKNOWN 31337, ⟨wireU16 31337, 2, []⟩) ∧
      (Cls.encode (.UNKNOWN 31337) ⟨0, []⟩).buf = wireU16 31337) :=
  codes_unknown_roundtrip 31337 (by decide)

/-- C9 (amended): encoding the Message with id=100, qr=1, opcode=7, aa=1,
tc=0, rd=1 produces 0x00 0x64 for the id and then the flag byte 0xBD = 189
(bits qr=1, opcode=0111, aa=1, tc=0, rd=1 → 1011 1101), not 0xBC. -/
theorem Message.header_bytes_concrete :
    (Message.to_bytes
        { id := 100, qr := 1, opcode := 7, aa := 1, tc := 0, rd := 1, ra := 0, z := 0,
          rcode := 0, nscount := 0, arcount := 0, questions := [], answers := [] }).map
      (List.take 3) = .ok [0, 100, 189] := by decide

/-- C9 counterexample: the same message encodes with third byte 189 = 0xBD,
so the claimed first three bytes 0x00 0x64 0xBC are not produced. -/
theorem Message.header_bytes_counterexample :
    Message.to_bytes
        { id := 100, qr := 1, opcode := 7, aa := 1, tc := 0, rd := 1, ra := 0, z := 0,
          rcode := 0, nscount := 0, arcount := 0, questions := [], answers := [] } =
      .ok [0, 100, 189, 0, 0, 0, 0, 0, 0, 0, 0, 0] ∧
    ¬((Message.to_bytes
        { id := 100, qr := 1, opcode := 7, aa := 1, tc := 0, rd := 1, ra := 0, z := 0,
          rcode := 0, nscount := 0, arcount := 0, questions := [], answers := [] }).map
      (List.take 3) = .ok [0, 100, 188]) := by decide

/-- C10: Message::encode returns Ok for every Message value — the two packed
header bytes use widths summing to exactly 8, so no width or overflow error
can arise — and out-of-range flag fields are silently masked to their low
bits: the encoding equals that of the mask-reduced message. -/
theorem Message.encode_total_masked (m : Message) :
    (∃ bs, Message.to_bytes m = .ok bs) ∧
      Message.to_bytes m = Message.to_bytes (maskMessage m) := by
  constructor
  · exact ⟨msgWire m, Message.to_bytes_eq m⟩
  · rw [Message.to_bytes_eq, Message.to_bytes_eq]
    simp only [msgWire, maskMessage, mkFlag1_mask, mkFlag2_mask]

/-! Inversion lemmas for C4: every decoder component either fails with a
faithful out-of-bounds Read error or invalid UTF-8, and on success leaves the
buffer unchanged. -/

theorem Decoder.read_slice_inv (d : Decoder) (len : Nat) :
    (∀ e, d.read_slice len = .error e →
      e = .Read d.offset len d.buf.length ∧ d.buf.length < d.offset + len) ∧
    (∀ bs d', d.read_slice len = .ok (bs, d') → d'.buf = d.buf ∧ d'.labels = d.labels ∧
      d'.offset = d.offset + len ∧ d.offset + len ≤ d.buf.length ∧
      bs = (d.buf.drop d.offset).take len) := by
  rw [Decoder.read_slice]
  by_cases hc : d.buf.length < d.offset + len
  · rw [if_pos hc]
    constructor
    · intro e h
      exact ⟨(Except.error.inj h).symm, hc⟩
    · intro bs d' h
      exact absurd h (by simp)
  · rw [if_neg hc]
    constructor
    · intro e h
      exact absurd h (by simp)
    · intro bs d' h
      obtain ⟨h1, h2⟩ := Prod.mk.injEq .. ▸ Except.ok.inj h
      rw [← h2, ← h1]
      exact ⟨rfl, rfl, rfl, by omega, rfl⟩

theorem Decoder.read_slice_fail (d : Decoder) (len : Nat) (e : Error)
    (h : d.read_slice len = .error e) : decodeFailureShape d.buf.length e := by
  obtain ⟨he, hlt⟩ := (Decoder.read_slice_inv d len).1 e h
  exact Or.inl ⟨d.offset, len, he, hlt⟩

theorem Decoder.read_u8_inv (d : Decoder) :
    (∀ e, d.read_u8 = .error e → decodeFailureShape d.buf.length e) ∧
    (∀ v d', d.read_u8 = .ok (v, d') → d'.buf = d.buf ∧ d'.labels = d.labels ∧
      d'.offset = d.offset + 1 ∧ d.offset + 1 ≤ d.buf.length) := by
  rw [Decoder.read_u8]
  cases hs : d.read_slice 1 with
  | error e2 =>
    constructor
    · intro e h
      rw [Except.error.inj h] at hs
      exact Decoder.read_slice_fail d 1 e hs
    · intro v d' h
      exact absurd h (by simp)
  | ok p =>
    obtain ⟨bs, d2⟩ := p
    obtain ⟨hb, hl, ho, hle, _⟩ := (Decoder.read_slice_inv d 1).2 bs d2 hs
    constructor
    · intro e h
      exact absurd h (by simp)
    · intro v d' h
      obtain ⟨_, h2⟩ := Prod.mk.injEq .. ▸ Except.ok.inj h
      rw [← h2]
      exact ⟨hb, hl, ho, hle⟩

theorem Decoder.read_u16_inv (d : Decoder) :
    (∀ e, d.read_u16 = .error e → decodeFailureShape d.buf.length e) ∧
    (∀ v d', d.read_u16 = .ok (v, d') → d'.buf = d.buf ∧ d'.labels = d.labels ∧
      d'.offset = d.offset + 2 ∧ d.offset + 2 ≤ d.buf.length ∧
      v = 256 * d.buf.getD d.offset 0 + d.buf.getD (d.offset + 1) 0) := by
  rw [Decoder.read_u16]
  cases hs : d.read_slice 2 with
  | error e2 =>
    constructor
    · intro e h
      rw [Except.error.inj h] at hs
      exact Decoder.read_slice_fail d 2 e hs
    · intro v d' h
      exact absurd h (by simp)
  | ok p =>
    obtain ⟨bs, d2⟩ := p
    obtain ⟨hb, hl, ho, hle, hbs⟩ := (Decoder.read_slice_inv d 2).2 bs d2 hs
    constructor
    · intro e h
      exact absurd h (by simp)
    · intro v d' h
      obtain ⟨h1, h2⟩ := Prod.mk.injEq .. ▸ Except.ok.inj h
      rw [← h2, ← h1]
      refine ⟨hb, hl, ho, hle, ?_⟩
      have hd1 : d.buf.drop d.offset = d.buf.getD d.offset 0 :: d.buf.drop (d.offset + 1) := by
        rw [List.drop_eq_getElem_cons (by omega)]
        rw [List.getD_eq_getElem?_getD, List.getElem?_eq_getElem (by omega)]
        rfl
      have hd2 : d.buf.drop (d.offset + 1) =
          d.buf.getD (d.offset + 1) 0 :: d.buf.drop (d.offset + 2) := by
        rw [List.drop_eq_getElem_cons (by omega)]
        rw [List.getD_eq_getElem?_getD, List.getElem?_eq_getElem (by omega)]
        rfl
      rw [hbs, hd1, hd2]
      simp [List.headI]
      omega

theorem Decoder.read_u32_inv (d : Decoder) :
    (∀ e, d.read_u32 = .error e → decodeFailureShape d.buf.length e) ∧
    (∀ v d', d.read_u32 = .ok (v, d') → d'.buf = d.buf ∧ d'.labels = d.labels ∧
      d'.offset = d.offset + 4 ∧ d.offset + 4 ≤ d.buf.length) := by
  rw [Decoder.read_u32]
  cases hs : d.read_slice 4 with
  | error e2 =>
    constructor
    · intro e h
      rw [Except.error.inj h] at hs
      exact Decoder.read_slice_fail d 4 e hs
    · intro v d' h
      exact absurd h (by simp)
  | ok p =>
    obtain ⟨bs, d2⟩ := p
    obtain ⟨hb, hl, ho, hle, _⟩ := (Decoder.read_slice_inv d 4).2 bs d2 hs
    constructor
    · intro e h
      exact absurd h (by simp)
    · intro v d' h
      obtain ⟨_, h2⟩ := Prod.mk.injEq .. ▸ Except.ok.inj h
      rw [← h2]
      exact ⟨hb, hl, ho, hle⟩

theorem bitsReadList_f1_ne_error (b : Nat) (e : Error) :
    bitsReadList ⟨b, 0⟩ [1, 4, 1, 1, 1] ≠ .error e := by
  simp [bitsReadList, BitDecoder.read]

theorem bitsReadList_f2_ne_error (b : Nat) (e : Error) :
    bitsReadList ⟨b, 0⟩ [1, 3, 4] ≠ .error e := by
  simp [bitsReadList, BitDecoder.read]

theorem Decoder.read_bits_inv (d : Decoder) (widths : List Nat)
    (hw : ∀ (b : Nat) (e : Error), bitsReadList ⟨b, 0⟩ widths ≠ .error e) :
    (∀ e, d.read_bits widths = .error e → decodeFailureShape d.buf.length e) ∧
    (∀ vs d', d.read_bits widths = .ok (vs, d') → d'.buf = d.buf ∧ d'.labels = d.labels ∧
      d'.offset = d.offset + 1 ∧ d.offset + 1 ≤ d.buf.length) := by
  rw [Decoder.read_bits]
  cases hs : d.read_slice 1 with
  | error e2 =>
    constructor
    · intro e h
      rw [Except.error.inj h] at hs
      exact Decoder.read_slice_fail d 1 e hs
    · intro vs d' h
      exact absurd h (by simp)
  | ok p =>
    obtain ⟨bs, d2⟩ := p
    obtain ⟨hb, hl, ho, hle, _⟩ := (Decoder.read_slice_inv d 1).2 bs d2 hs
    cases hbits : bitsReadList ⟨bs.headI, 0⟩ widths with
    | error e2 => exact absurd hbits (hw bs.headI e2)
    | ok q =>
      obtain ⟨vs2, s2⟩ := q
      constructor
      · intro e h
        simp [hbits] at h
      · intro vs d' h
        simp only [hbits, Except.ok.injEq, Prod.mk.injEq] at h
        obtain ⟨h1, h2⟩ := h
        rw [← h2]
        exact ⟨hb, hl, ho, hle⟩

theorem Decoder.read_label_inv (d : Decoder) :
    (∀ e, d.read_label = .error e → decodeFailureShape d.buf.length e) ∧
    (∀ r d', d.read_label = .ok (r, d') → d'.buf = d.buf ∧ d'.offset ≤ d.buf.length ∧
      ∀ l, r = some l → d.offset + 2 ≤ d'.offset) := by
  constructor
  · intro e h
    simp only [Decoder.read_label] at h
    split at h
    next e2 heq =>
      cases h
      exact (Decoder.read_u8_inv d).1 _ heq
    next len d1 heq =>
      obtain ⟨hb1, hl1, ho1, hle1⟩ := (Decoder.read_u8_inv d).2 len d1 heq
      split at h
      · simp at h
      · split at h
        · split at h
          next e3 heq2 =>
            cases h
            have hrec := (Decoder.read_u8_inv d1).1 _ heq2
            rwa [hb1] at hrec
          next b2 d2 heq2 => simp at h
        · split at h
          next e3 heq2 =>
            cases h
            have hrec := Decoder.read_slice_fail d1 len _ heq2
            rwa [hb1] at hrec
          next bs d2 heq2 =>
            split at h
            · simp at h
            · cases h
              exact Or.inr rfl
  · intro r d' h
    simp only [Decoder.read_label] at h
    split at h
    next e2 heq => simp at h
    next len d1 heq =>
      obtain ⟨hb1, hl1, ho1, hle1⟩ := (Decoder.read_u8_inv d).2 len d1 heq
      split at h
      next hz =>
        cases h
        refine ⟨hb1, by omega, ?_⟩
        intro l hl
        cases hl
      next hz =>
        split at h
        next hp =>
          split at h
          next e3 heq2 => simp at h
          next b2 d2 heq2 =>
            obtain ⟨hb2, hl2, ho2, hle2⟩ := (Decoder.read_u8_inv d1).2 b2 d2 heq2
            have hbl : d1.buf.length = d.buf.length := by rw [hb1]
            cases h
            refine ⟨by rw [hb2, hb1], by omega, ?_⟩
            intro l hl
            omega
        next hp =>
          split at h
          next e3 heq2 => simp at h
          next bs d2 heq2 =>
            obtain ⟨hb2, hl2, ho2, hle2, _⟩ := (Decoder.read_slice_inv d1 len).2 bs d2 heq2
            have hbl : d1.buf.length = d.buf.length := by rw [hb1]
            split at h
            · cases h
              refine ⟨?_, ?_, ?_⟩
              · show d2.buf = d.buf
                rw [hb2, hb1]
              · show d2.offset ≤ d.buf.length
                omega
              · intro l hl
                show d.offset + 2 ≤ d2.offset
                omega
            · simp at h

theorem Decoder.read_name_labels_inv :
    ∀ (fuel : Nat) (d : Decoder), d.buf.length - d.offset < fuel →
      (∀ e, Decoder.read_name_labels fuel d = .error e → decodeFailureShape d.buf.length e) ∧
      (∀ ls d', Decoder.read_name_labels fuel d = .ok (ls, d') → d'.buf = d.buf) := by
  intro fuel
  induction fuel with
  | zero =>
    intro d hf
    exact absurd hf (by omega)
  | succ fuel ih =>
    intro d hf
    constructor
    · intro e h
      simp only [Decoder.read_name_labels] at h
      split at h
      next e2 heq =>
        cases h
        exact (Decoder.read_label_inv d).1 _ heq
      next d1 heq => simp at h
      next l d1 heq =>
        obtain ⟨hb1, hle1, hsome⟩ := (Decoder.read_label_inv d).2 _ _ heq
        have h2off : d.offset + 2 ≤ d1.offset := hsome l rfl
        split at h
        · simp at h
        · split at h
          next e3 heq2 =>
            cases h
            have hcond : d1.buf.length - d1.offset < fuel := by rw [hb1]; omega
            have hrec := (ih d1 hcond).1 _ heq2
            rwa [hb1] at hrec
          next ls2 d2 heq2 => simp at h
    · intro ls d' h
      simp only [Decoder.read_name_labels] at h
      split at h
      next e2 heq => simp at h
      next d1 heq =>
        cases h
        exact ((Decoder.read_label_inv d).2 _ _ heq).1
      next l d1 heq =>
        obtain ⟨hb1, hle1, hsome⟩ := (Decoder.read_label_inv d).2 _ _ heq
        have h2off : d.offset + 2 ≤ d1.offset := hsome l rfl
        split at h
        · cases h
          exact hb1
        · split at h
          next e3 heq2 => simp at h
          next ls2 d2 heq2 =>
            cases h
            have hcond : d1.buf.length - d1.offset < fuel := by rw [hb1]; omega
            have hrec := (ih d1 hcond).2 _ _ heq2
            rw [hrec, hb1]

theorem Decoder.read_name_inv (d : Decoder) :
    (∀ e, d.read_name = .error e → decodeFailureShape d.buf.length e) ∧
    (∀ s d', d.read_name = .ok (s, d') → d'.buf = d.buf) := by
  have hnl := Decoder.read_name_labels_inv (d.buf.length + 1) d (by omega)
  constructor
  · intro e h
    simp only [Decoder.read_name] at h
    split at h
    next e2 heq =>
      cases h
      exact hnl.1 _ heq
    next ls d1 heq => simp at h
  · intro s d' h
    simp only [Decoder.read_name] at h
    split at h
    next e2 heq => simp at h
    next ls d1 heq =>
      cases h
      exact hnl.2 _ _ heq

theorem Name.decode_inv_name (d : Decoder) :
    (∀ e, Name.decode d = .error e → decodeFailureShape d.buf.length e) ∧
    (∀ n d', Name.decode d = .ok (n, d') → d'.buf = d.buf) := by
  constructor
  · intro e h
    simp only [Name.decode] at h
    split at h
    next e2 heq =>
      cases h
      exact (Decoder.read_name_inv d).1 _ heq
    next s d1 heq => simp at h
  · intro n d' h
    simp only [Name.decode] at h
    split at h
    next e2 heq => simp at h
    next s d1 heq =>
      cases h
      exact (Decoder.read_name_inv d).2 _ _ heq

theorem Ty.decode_inv_ty (d : Decoder) :
    (∀ e, Ty.decode d = .error e → decodeFailureShape d.buf.length e) ∧
    (∀ t d', Ty.decode d = .ok (t, d') → d'.buf = d.buf) := by
  constructor
  · intro e h
    simp only [Ty.decode] at h
    split at h
    next e2 heq =>
      cases h
      exact (Decoder.read_u16_inv d).1 _ heq
    next v d1 heq => simp at h
  · intro t d' h
    simp only [Ty.decode] at h
    split at h
    next e2 heq => simp at h
    next v d1 heq =>
      cases h
      exact ((Decoder.read_u16_inv d).2 _ _ heq).1

theorem Cls.decode_inv_cls (d : Decoder) :
    (∀ e, Cls.decode d = .error e → decodeFailureShape d.buf.length e) ∧
    (∀ c d', Cls.decode d = .ok (c, d') → d'.buf = d.buf) := by
  constructor
  · intro e h
    simp only [Cls.decode] at h
    split at h
    next e2 heq =>
      cases h
      exact (Decoder.read_u16_inv d).1 _ heq
    next v d1 heq => simp at h
  · intro c d' h
    simp only [Cls.decode] at h
    split at h
    next e2 heq => simp at h
    next v d1 heq =>
      cases h
      exact ((Decoder.read_u16_inv d).2 _ _ heq).1

theorem Question.decode_inv_question (d : Decoder) :
    (∀ e, Question.decode d = .error e → decodeFailureShape d.buf.length e) ∧
    (∀ q d', Question.decode d = .ok (q, d') → d'.buf = d.buf) := by
  constructor
  · intro e h
    simp only [Question.decode] at h
    split at h
    next e2 heq =>
      cases h
      exact (Name.decode_inv_name d).1 _ heq
    next n d1 heq =>
      have hb1 := (Name.decode_inv_name d).2 _ _ heq
      split at h
      next e2 heq2 =>
        cases h
        have hrec := (Ty.decode_inv_ty d1).1 _ heq2
        rwa [hb1] at hrec
      next t d2 heq2 =>
        have hb2 := (Ty.decode_inv_ty d1).2 _ _ heq2
        split at h
        next e2 heq3 =>
          cases h
          have hrec := (Cls.decode_inv_cls d2).1 _ heq3
          rwa [hb2, hb1] at hrec
        next c d3 heq3 => simp at h
  · intro q d' h
    simp only [Question.decode] at h
    split at h
    next e2 heq => simp at h
    next n d1 heq =>
      have hb1 := (Name.decode_inv_name d).2 _ _ heq
      split at h
      next e2 heq2 => simp at h
      next t d2 heq2 =>
        have hb2 := (Ty.decode_inv_ty d1).2 _ _ heq2
        split at h
        next e2 heq3 => simp at h
        next c d3 heq3 =>
          have hb3 := (Cls.decode_inv_cls d2).2 _ _ heq3
          cases h
          rw [hb3, hb2, hb1]

theorem Record.decode_inv_record (d : Decoder) :
    (∀ e, Record.decode d = .error e → decodeFailureShape d.buf.length e) ∧
    (∀ r d', Record.decode d = .ok (r, d') → d'.buf = d.buf) := by
  constructor
  · intro e h
    simp only [Record.decode] at h
    split at h
    next e2 heq =>
      cases h
      exact (Name.decode_inv_name d).1 _ heq
    next n d1 heq =>
      have hb1 := (Name.decode_inv_name d).2 _ _ heq
      split at h
      next e2 heq2 =>
        cases h
        have hrec := (Ty.decode_inv_ty d1).1 _ heq2
        rwa [hb1] at hrec
      next t d2 heq2 =>
        have hb2 := (Ty.decode_inv_ty d1).2 _ _ heq2
        split at h
        next e2 heq3 =>
          cases h
          have hrec := (Cls.decode_inv_cls d2).1 _ heq3
          rwa [hb2, hb1] at hrec
        next c d3 heq3 =>
          have hb3 := (Cls.decode_inv_cls d2).2 _ _ heq3
          split at h
          next e2 heq4 =>
            cases h
            have hrec := (Decoder.read_u32_inv d3).1 _ heq4
            rwa [hb3, hb2, hb1] at hrec
          next ttl d4 heq4 =>
            obtain ⟨hb4, _, _, _⟩ := (Decoder.read_u32_inv d3).2 _ _ heq4
            split at h
            next e2 heq5 =>
              cases h
              have hrec := (Decoder.read_u16_inv d4).1 _ heq5
              rwa [hb4, hb3, hb2, hb1] at hrec
            next rdlength d5 heq5 =>
              obtain ⟨hb5, _, _, _, _⟩ := (Decoder.read_u16_inv d4).2 _ _ heq5
              split at h
              next e2 heq6 =>
                cases h
                have hrec := Decoder.read_slice_fail d5 rdlength _ heq6
                rwa [hb5, hb4, hb3, hb2, hb1] at hrec
              next bs d6 heq6 => simp at h
  · intro r d' h
    simp only [Record.decode] at h
    split at h
    next e2 heq => simp at h
    next n d1 heq =>
      have hb1 := (Name.decode_inv_name d).2 _ _ heq
      split at h
      next e2 heq2 => simp at h
      next t d2 heq2 =>
        have hb2 := (Ty.decode_inv_ty d1).2 _ _ heq2
        split at h
        next e2 heq3 => simp at h
        next c d3 heq3 =>
          have hb3 := (Cls.decode_inv_cls d2).2 _ _ heq3
          split at h
          next e2 heq4 => simp at h
          next ttl d4 heq4 =>
            obtain ⟨hb4, _, _, _⟩ := (Decoder.read_u32_inv d3).2 _ _ heq4
            split at h
            next e2 heq5 => simp at h
            next rdlength d5 heq5 =>
              obtain ⟨hb5, _, _, _, _⟩ := (Decoder.read_u16_inv d4).2 _ _ heq5
              split at h
              next e2 heq6 => simp at h
              next bs d6 heq6 =>
                obtain ⟨hb6, _, _, _, _⟩ := (Decoder.read_slice_inv d5 rdlength).2 _ _ heq6
                cases h
                rw [hb6, hb5, hb4, hb3, hb2, hb1]

theorem decodeN_inv {α : Type} (f : Decoder → Except Error (α × Decoder))
    (hf : ∀ d : Decoder,
      (∀ e, f d = .error e → decodeFailureShape d.buf.length e) ∧
      (∀ x d', f d = .ok (x, d') → d'.buf = d.buf)) :
    ∀ (n : Nat) (d : Decoder),
      (∀ e, decodeN f n d = .error e → decodeFailureShape d.buf.length e) ∧
      (∀ xs d', decodeN f n d = .ok (xs, d') → d'.buf = d.buf ∧ xs.length = n) := by
  intro n
  induction n with
  | zero =>
    intro d
    constructor
    · intro e h
      simp [decodeN] at h
    · intro xs d' h
      simp only [decodeN] at h
      cases h
      exact ⟨rfl, rfl⟩
  | succ n ih =>
    intro d
    constructor
    · intro e h
      simp only [decodeN] at h
      split at h
      next e2 heq =>
        cases h
        exact (hf d).1 _ heq
      next x d1 heq =>
        have hb1 := (hf d).2 _ _ heq
        split at h
        next e2 heq2 =>
          cases h
          have hrec := (ih d1).1 _ heq2
          rwa [hb1] at hrec
        next xs2 d2 heq2 => simp at h
    · intro xs d' h
      simp only [decodeN] at h
      split at h
      next e2 heq => simp at h
      next x d1 heq =>
        have hb1 := (hf d).2 _ _ heq
        split at h
        next e2 heq2 => simp at h
        next xs2 d2 heq2 =>
          cases h
          obtain ⟨hb2, hlen⟩ := (ih d1).2 _ _ heq2
          exact ⟨by rw [hb2, hb1], by simp [hlen]⟩

theorem Message.decode_inv_message (d : Decoder) :
    (∀ e, Message.decode d = .error e → decodeFailureShape d.buf.length e) ∧
    (∀ m d', Message.decode d = .ok (m, d') →
      d.offset + 12 ≤ d.buf.length ∧
      m.questions.length = 256 * d.buf.getD (d.offset + 4) 0 + d.buf.getD (d.offset + 5) 0 ∧
      m.answers.length = 256 * d.buf.getD (d.offset + 6) 0 + d.buf.getD (d.offset + 7) 0) := by
  constructor
  · intro e h
    simp only [Message.decode] at h
    split at h
    next e2 heq1 =>
      cases h
      exact (Decoder.read_u16_inv d).1 _ heq1
    next i d1 heq1 =>
      obtain ⟨hb1, _, ho1, hle1, _⟩ := (Decoder.read_u16_inv d).2 _ _ heq1
      split at h
      next e2 heq2 =>
        cases h
        have hrec := (Decoder.read_bits_inv d1 _ bitsReadList_f1_ne_error).1 _ heq2
        rwa [hb1] at hrec
      next f1 d2 heq2 =>
        obtain ⟨hb2, _, ho2, hle2⟩ := (Decoder.read_bits_inv d1 _ bitsReadList_f1_ne_error).2 _ _ heq2
        split at h
        next e2 heq3 =>
          cases h
          have hrec := (Decoder.read_bits_inv d2 _ bitsReadList_f2_ne_error).1 _ heq3
          rwa [hb2, hb1] at hrec
        next f2 d3 heq3 =>
          obtain ⟨hb3, _, ho3, hle3⟩ := (Decoder.read_bits_inv d2 _ bitsReadList_f2_ne_error).2 _ _ heq3
          split at h
          next e2 heq4 =>
            cases h
            have hrec := (Decoder.read_u16_inv d3).1 _ heq4
            rwa [hb3, hb2, hb1] at hrec
          next qd d4 heq4 =>
            obtain ⟨hb4, _, ho4, hle4, hv4⟩ := (Decoder.read_u16_inv d3).2 _ _ heq4
            split at h
            next e2 heq5 =>
              cases h
              have hrec := (Decoder.read_u16_inv d4).1 _ heq5
              rwa [hb4, hb3, hb2, hb1] at hrec
            next an d5 heq5 =>
              obtain ⟨hb5, _, ho5, hle5, hv5⟩ := (Decoder.read_u16_inv d4).2 _ _ heq5
              split at h
              next e2 heq6 =>
                cases h
                have hrec := (Decoder.read_u16_inv d5).1 _ heq6
                rwa [hb5, hb4, hb3, hb2, hb1] at hrec
              next ns d6 heq6 =>
                obtain ⟨hb6, _, ho6, hle6, _⟩ := (Decoder.read_u16_inv d5).2 _ _ heq6
                split at h
                next e2 heq7 =>
                  cases h
                  have hrec := (Decoder.read_u16_inv d6).1 _ heq7
                  rwa [hb6, hb5, hb4, hb3, hb2, hb1] at hrec
                next ar d7 heq7 =>
                  obtain ⟨hb7, _, ho7, hle7, _⟩ := (Decoder.read_u16_inv d6).2 _ _ heq7
                  split at h
                  next e2 heq8 =>
                    cases h
                    have hrec := (decodeN_inv Question.decode Question.decode_inv_question qd d7).1 _ heq8
                    rwa [hb7, hb6, hb5, hb4, hb3, hb2, hb1] at hrec
                  next qs d8 heq8 =>
                    obtain ⟨hb8, _⟩ := (decodeN_inv Question.decode Question.decode_inv_question qd d7).2 _ _ heq8
                    split at h
                    next e2 heq9 =>
                      cases h
                      have hrec := (decodeN_inv Record.decode Record.decode_inv_record an d8).1 _ heq9
                      rwa [hb8, hb7, hb6, hb5, hb4, hb3, hb2, hb1] at hrec
                    next ans d9 heq9 => simp at h
  · intro m d' h
    simp only [Message.decode] at h
    split at h
    next e2 heq1 => simp at h
    next i d1 heq1 =>
      obtain ⟨hb1, _, ho1, hle1, _⟩ := (Decoder.read_u16_inv d).2 _ _ heq1
      split at h
      next e2 heq2 => simp at h
      next f1 d2 heq2 =>
        obtain ⟨hb2, _, ho2, hle2⟩ := (Decoder.read_bits_inv d1 _ bitsReadList_f1_ne_error).2 _ _ heq2
        split at h
        next e2 heq3 => simp at h
        next f2 d3 heq3 =>
          obtain ⟨hb3, _, ho3, hle3⟩ := (Decoder.read_bits_inv d2 _ bitsReadList_f2_ne_error).2 _ _ heq3
          split at h
          next e2 heq4 => simp at h
          next qd d4 heq4 =>
            obtain ⟨hb4, _, ho4, hle4, hv4⟩ := (Decoder.read_u16_inv d3).2 _ _ heq4
            split at h
            next e2 heq5 => simp at h
            next an d5 heq5 =>
              obtain ⟨hb5, _, ho5, hle5, hv5⟩ := (Decoder.read_u16_inv d4).2 _ _ heq5
              split at h
              next e2 heq6 => simp at h
              next ns d6 heq6 =>
                obtain ⟨hb6, _, ho6, hle6, _⟩ := (Decoder.read_u16_inv d5).2 _ _ heq6
                split at h
                next e2 heq7 => simp at h
                next ar d7 heq7 =>
                  obtain ⟨hb7, _, ho7, hle7, _⟩ := (Decoder.read_u16_inv d6).2 _ _ heq7
                  split at h
                  next e2 heq8 => simp at h
                  next qs d8 heq8 =>
                    obtain ⟨hb8, hqlen⟩ :=
                      (decodeN_inv Question.decode Question.decode_inv_question qd d7).2 _ _ heq8
                    split at h
                    next e2 heq9 => simp at h
                    next ans d9 heq9 =>
                      obtain ⟨hb9, halen⟩ :=
                        (decodeN_inv Record.decode Record.decode_inv_record an d8).2 _ _ heq9
                      cases h
                      have hbl1 : d1.buf = d.buf := hb1
                      have hbl3 : d3.buf = d.buf := by rw [hb3, hb2, hb1]
                      have hbl4 : d4.buf = d.buf := by rw [hb4, hbl3]
                      have hbl5 : d5.buf = d.buf := by rw [hb5, hbl4]
                      have hbl6 : d6.buf = d.buf := by rw [hb6, hbl5]
                      have hlen6 : d6.buf.length = d.buf.length := by rw [hbl6]
                      have hoff3 : d3.offset = d.offset + 4 := by omega
                      have hoff4 : d4.offset = d.offset + 6 := by omega
                      rw [hbl3, hoff3] at hv4
                      rw [hbl4, hoff4] at hv5
                      refine ⟨by omega, ?_, ?_⟩
                      · show qs.length = _
                        rw [hqlen, hv4]
                      · show ans.length = _
                        rw [halen, hv5]

/-- C4: Message::decode decodes exactly as many questions as the QDCOUNT it
read from bytes 4-5 and exactly as many records as the ANCOUNT from bytes
6-7, never driven by the remaining buffer length; and when decoding fails the
error is the byte cursor's out-of-bounds Read error — carrying the true
buffer length and a genuinely out-of-range request — propagated unchanged (or
the invalid-UTF-8 error from a label), with no partial Message returned. -/
theorem Message.decode_counts_exact (buf : List Nat) :
    (∀ m, Message.from_bytes buf = .ok m →
      12 ≤ buf.length ∧
      m.questions.length = 256 * buf.getD 4 0 + buf.getD 5 0 ∧
      m.answers.length = 256 * buf.getD 6 0 + buf.getD 7 0) ∧
    (∀ e, Message.from_bytes buf = .error e →
      (∃ o l, e = .Read o l buf.length ∧ buf.length < o + l) ∨ e = .DecodeUtf8) := by
  have hinv := Message.decode_inv_message ⟨buf, 0, []⟩
  constructor
  · intro m h
    simp only [Message.from_bytes] at h
    split at h
    next e2 heq => simp at h
    next m2 d2 heq =>
      cases h
      obtain ⟨hle, hq, ha⟩ := hinv.2 _ _ heq
      simp only [Nat.zero_add] at hle hq ha
      exact ⟨by omega, hq, ha⟩
  · intro e h
    simp only [Message.from_bytes] at h
    split at h
    next e2 heq =>
      cases h
      exact hinv.1 _ heq
    next m2 d2 heq => simp at h

/-- C4 witness: a 12-byte all-zero header decodes to a message with zero
questions and answers, matching the counts at bytes 4-7; and the 2-byte
buffer [1,2] fails with the Read error reporting offset 2, length 1, buffer
length 2 — an out-of-bounds request reported faithfully. -/
theorem Message.decode_counts_exact_witness :
    (12 ≤ ([0, 0, 0, 0, 0, 0, 0, 0, 0, 0, 0, 0] : List Nat).length ∧
      ({ id := 0, qr := 0, opcode := 0, aa := 0, tc := 0, rd := 0, ra := 0, z := 0, rcode := 0,
         nscount := 0, arcount := 0, questions := [], answers := [] } :
          Message).questions.length =
        256 * ([0, 0, 0, 0, 0, 0, 0, 0, 0, 0, 0, 0] : List Nat).getD 4 0 +
          ([0, 0, 0, 0, 0, 0, 0, 0, 0, 0, 0, 0] : List Nat).getD 5 0 ∧
      ({ id := 0, qr := 0, opcode := 0, aa := 0, tc := 0, rd := 0, ra := 0, z := 0, rcode := 0,
         nscount := 0, arcount := 0, questions := [], answers := [] } :
          Message).answers.length =
        256 * ([0, 0, 0, 0, 0, 0, 0, 0, 0, 0, 0, 0] : List Nat).getD 6 0 +
          ([0, 0, 0, 0, 0, 0, 0, 0, 0, 0, 0, 0] : List Nat).getD 7 0) ∧
    ((∃ o l, Error.Read 2 1 2 = .Read o l ([1, 2] : List Nat).length ∧
        ([1, 2] : List Nat).length < o + l) ∨ Error.Read 2 1 2 = .DecodeUtf8) := by
  constructor
  · exact (Message.decode_counts_exact [0, 0, 0, 0, 0, 0, 0, 0, 0, 0, 0, 0]).1
      { id := 0, qr := 0, opcode := 0, aa := 0, tc := 0, rd := 0, ra := 0, z := 0, rcode := 0,
        nscount := 0, arcount := 0, questions := [], answers := [] } (by decide)
  · exact (Message.decode_counts_exact [1, 2]).2 (.Read 2 1 2) (by decide)
